import Mathlib

/-!
Verification of the knowledge-graph analytics core (`analyze.py`).

The Python core builds a `networkx.DiGraph` from a fetched payload and runs
statistics, centrality, community detection and shortest-path queries over it.
We embed the graph model, the builder and the analysis functions (including
the semantics of the networkx library calls the code makes) as executable
Lean definitions and prove the specification claims about them.

Machine reals (Python floats) are modelled as exact rationals; property
values are modelled as opaque strings (no claim inspects them).
-/

namespace KG

/-- Node identifier: a unique string key. -/
abbrev Key := String

/-- Opaque scalar/JSON property value (never inspected by the analytics). -/
abbrev PropVal := String

/-- A directed, labeled edge, as stored by `networkx.DiGraph`:
at most one edge per ordered `(src, dst)` pair. -/
structure Edge where
  src : Key
  dst : Key
  label : String
deriving DecidableEq, Repr

/-- The in-memory directed graph: attributed nodes in insertion order and
directed labeled edges.  Mirrors `self.graph : nx.DiGraph` in `analyze.py`. -/
structure Graph where
  nodes : List (Key × List (Key × PropVal))
  edges : List Edge
deriving DecidableEq, Repr

/-- The node keys of the graph, in insertion order. -/
def nodeKeys (g : Graph) : List Key := g.nodes.map Prod.fst

/-- `graph.number_of_nodes()`. -/
def numNodes (g : Graph) : Nat := g.nodes.length

/-- `graph.number_of_edges()`. -/
def numEdges (g : Graph) : Nat := g.edges.length

/-- Membership test for a node key (`node_id in G`). -/
def hasNode (g : Graph) (k : Key) : Bool := decide (k ∈ nodeKeys g)

/-- The attribute mapping stored for a node key, if the node exists. -/
def lookupProps (g : Graph) (k : Key) : Option (List (Key × PropVal)) :=
  (g.nodes.find? (fun p => p.1 == k)).map Prod.snd

/-- Well-formedness: every edge endpoint is a node of the graph.
`networkx` guarantees this for every reachable `DiGraph` state. -/
def Wf (g : Graph) : Prop :=
  ∀ e ∈ g.edges, e.src ∈ nodeKeys g ∧ e.dst ∈ nodeKeys g

/-- Edge keys are pairwise distinct: at most one stored edge per ordered
`(src, dst)` pair, as in `networkx.DiGraph`. -/
def EdgePairsNodup (g : Graph) : Prop :=
  (g.edges.map (fun e => (e.src, e.dst))).Nodup

/-- Direct successors of `u` (targets of edges leaving `u`). -/
def succs (g : Graph) (u : Key) : List Key :=
  (g.edges.filter (fun e => e.src == u)).map Edge.dst

/-- Direct predecessors of `u` (sources of edges entering `u`). -/
def preds (g : Graph) (u : Key) : List Key :=
  (g.edges.filter (fun e => e.dst == u)).map Edge.src

/-- `G.in_degree(v)`. -/
def inDeg (g : Graph) (v : Key) : Nat := (preds g v).length

/-- `G.out_degree(v)`. -/
def outDeg (g : Graph) (v : Key) : Nat := (succs g v).length

/-! ## Graph builder (`fetch_graph` body) -/

/-- Update-or-append one attribute in an attribute list (Python dict update). -/
def insertProp (ps : List (Key × PropVal)) (kv : Key × PropVal) :
    List (Key × PropVal) :=
  if ps.any (fun p => p.1 == kv.1) then
    ps.map (fun p => if p.1 == kv.1 then (p.1, kv.2) else p)
  else ps ++ [kv]

/-- Merge new attributes into an existing attribute mapping
(`dict.update` semantics of `nx.add_node` on an existing node). -/
def mergeProps (old new : List (Key × PropVal)) : List (Key × PropVal) :=
  new.foldl insertProp old

/-- `G.add_node(k, **props)`: create the node, or merge attributes into an
existing node with the same key. -/
def add_node (g : Graph) (k : Key) (props : List (Key × PropVal)) : Graph :=
  if hasNode g k then
    { g with nodes := g.nodes.map (fun p => if p.1 == k then (p.1, mergeProps p.2 props) else p) }
  else
    { g with nodes := g.nodes ++ [(k, props)] }

/-- Silently create a node with empty attributes if absent
(the implicit node creation `nx.add_edge` performs for missing endpoints). -/
def ensureNode (g : Graph) (k : Key) : Graph :=
  if hasNode g k then g else { g with nodes := g.nodes ++ [(k, [])] }

/-- Insert or overwrite the edge for the ordered pair `(u, v)`. -/
def insertEdge (es : List Edge) (u v : Key) (l : String) : List Edge :=
  if es.any (fun e => e.src == u && e.dst == v) then
    es.map (fun e => if e.src == u && e.dst == v then ⟨u, v, l⟩ else e)
  else es ++ [⟨u, v, l⟩]

/-- `G.add_edge(u, v, label=l)`: create missing endpoints with empty
attributes, then store the edge (overwriting a previous `(u, v)` edge). -/
def add_edge (g : Graph) (u v : Key) (l : String) : Graph :=
  let g1 := ensureNode (ensureNode g u) v
  { g1 with edges := insertEdge g1.edges u v l }

/-- A node record of the wire payload: an optional `props` sub-map
(`node_data.get("props", {})`). -/
structure NodeRec where
  props : Option (List (Key × PropVal))
deriving Repr

/-- An edge record of the wire payload: required `From`/`To` keys and an
optional `Label` (`edge.get("Label", "")`). -/
structure EdgeRec where
  From : Key
  To : Key
  Label : Option String
deriving Repr

/-- The fetched top-level JSON object; either expected key may be absent
(modelling a malformed payload shape). -/
structure RawPayload where
  nodes : Option (List (Key × NodeRec))
  edges : Option (List EdgeRec)

/-- The empty `nx.DiGraph()` the analyzer starts from. -/
def emptyGraph : Graph := ⟨[], []⟩

/-- The graph-construction loops of `fetch_graph`: add every declared node
with its attributes, then add every edge record. -/
def buildGraph (ns : List (Key × NodeRec)) (es : List EdgeRec) : Graph :=
  let g1 := ns.foldl (fun g p => add_node g p.1 (p.2.props.getD [])) emptyGraph
  es.foldl (fun g e => add_edge g e.From e.To (e.Label.getD (""))) g1

/-- The `try`-block body of `fetch_graph` on an already-fetched payload:
a missing expected top-level key raises `KeyError` (modelled as `.error`). -/
def buildFromPayload (p : RawPayload) : Except String Graph :=
  match p.nodes with
  | none => .error ("KeyError: nodes")
  | some ns =>
    match p.edges with
    | none => .error ("KeyError: edges")
    | some es => .ok (buildGraph ns es)

/-- `fetch_graph` seen from its caller: every in-body exception (including
`KeyError` from a malformed payload) is caught by the final
`except Exception` clause, which prints a diagnostic and returns `False`. -/
def fetch_graph (p : RawPayload) : Bool :=
  match buildFromPayload p with
  | .ok _ => true
  | .error _ => false

/-- Process exit code of `main()`: `sys.exit(1)` when the fetch fails. -/
def mainExitCode (p : RawPayload) : Nat :=
  if fetch_graph p then 0 else 1

/-! ## Statistics engine (`basic_stats`) -/

/-- `nx.density` for a directed graph: `0` when `m == 0 or n <= 1`,
otherwise `m / (n * (n - 1))`. -/
def nx_density (g : Graph) : ℚ :=
  if numEdges g = 0 ∨ numNodes g ≤ 1 then 0
  else (numEdges g : ℚ) / ((numNodes g : ℚ) * ((numNodes g : ℚ) - 1))

/-! ## Reachability (weak connectivity and shortest paths) -/

/-- Neighbours in the undirected view of the graph: successors and
predecessors together (`nx.is_weakly_connected` traverses both). -/
def symSucc (g : Graph) (u : Key) : List Key := succs g u ++ preds g u

/-- One expansion step of a breadth-first closure over `f`-neighbours. -/
def reachStep (f : Key → List Key) (s : List Key) : List Key :=
  (s ++ s.flatMap f).dedup

/-- Iterated closure: all vertices reachable in at most `k` steps from `s`. -/
def reachIter (f : Key → List Key) : Nat → List Key → List Key
  | 0, s => s
  | k + 1, s => reachIter f k (reachStep f s)

/-- `nx.is_weakly_connected`, defined on nonempty graphs: the weak component
of the first node must contain every node. -/
def nx_is_weakly_connected (g : Graph) : Bool :=
  match nodeKeys g with
  | [] => false
  | v :: _ => (nodeKeys g).all (fun x => decide (x ∈ reachIter (symSucc g) (numNodes g) [v]))

/-- The `is_connected` statistic of `basic_stats`:
`nx.is_weakly_connected(G) if G.number_of_nodes() > 0 else False`. -/
def is_connected (g : Graph) : Bool :=
  if numNodes g = 0 then false else nx_is_weakly_connected g

/-- The record returned by `basic_stats`. -/
structure Stats where
  nodes : Nat
  edges : Nat
  density : ℚ
  connected : Bool
deriving Repr

/-- `basic_stats`. -/
def basic_stats (g : Graph) : Stats :=
  ⟨numNodes g, numEdges g, nx_density g, is_connected g⟩

/-- The undirected-projection edge relation: `u` and `v` are adjacent iff a
directed edge exists in either orientation. -/
def adjSym (g : Graph) (u v : Key) : Prop :=
  ∃ e ∈ g.edges, (e.src = u ∧ e.dst = v) ∨ (e.src = v ∧ e.dst = u)

/-- The specification of weak connectivity: the undirected projection is a
single connected component (in particular the graph is nonempty). -/
def SingleComponent (g : Graph) : Prop :=
  nodeKeys g ≠ [] ∧
    ∀ u ∈ nodeKeys g, ∀ v ∈ nodeKeys g, Relation.ReflTransGen (adjSym g) u v

/-- One adjacency step along `f`-neighbours. -/
def stepRel (f : Key → List Key) (a b : Key) : Prop := b ∈ f a

/-- Reachability along `f`-neighbours in at most `n` steps. -/
def ReachLe (f : Key → List Key) : Nat → Key → Key → Prop
  | 0, a, b => a = b
  | n + 1, a, b => a = b ∨ ∃ c ∈ f a, ReachLe f n c b

/-! ## Shortest paths (`nx.all_shortest_paths` / `find_paths`) -/

/-- All directed walks of exactly `L` edges starting at `s`, each stored in
reverse (current endpoint first, `s` last). -/
def walksRev (g : Graph) (s : Key) : Nat → List (List Key)
  | 0 => [[s]]
  | L + 1 =>
    (walksRev g s L).flatMap (fun p =>
      match p with
      | [] => []
      | x :: _ => (succs g x).map (fun y => y :: p))

/-- Does some directed walk of exactly `L` edges lead from `s` to `t`? -/
def hasWalkLen (g : Graph) (s t : Key) (L : Nat) : Bool :=
  (walksRev g s L).any (fun p => decide (p.head? = some t))

/-- Smallest walk length in `[L0, L0 + fuel)` from `s` to `t`, if any:
the breadth-first distance search of `nx.predecessor`. -/
def searchLen (g : Graph) (s t : Key) : Nat → Nat → Option Nat
  | _, 0 => none
  | L, fuel + 1 => if hasWalkLen g s t L then some L else searchLen g s t (L + 1) fuel

/-- The shortest `s`→`t` paths, each listed source-first. -/
def shortestPathsList (g : Graph) (s t : Key) (L : Nat) : List (List Key) :=
  ((walksRev g s L).filter (fun p => decide (p.head? = some t))).map List.reverse

/-- `nx.all_shortest_paths(G, s, t)` (unweighted): raises `NodeNotFound` for
a missing source or target and `NetworkXNoPath` when `t` is unreachable;
otherwise yields every minimum-length directed path. -/
def all_shortest_paths (g : Graph) (s t : Key) : Except String (List (List Key)) :=
  if hasNode g s then
    if hasNode g t then
      match searchLen g s t 0 (numNodes g) with
      | some L => .ok (shortestPathsList g s t L)
      | none => .error ("NetworkXNoPath")
    else .error ("NodeNotFound")
  else .error ("NodeNotFound")

/-- `find_paths`: the first `k` shortest paths; both library exceptions are
caught and turned into the empty list. -/
def find_paths (g : Graph) (s t : Key) (k : Nat) : List (List Key) :=
  match all_shortest_paths g s t with
  | .ok ps => ps.take k
  | .error _ => []

/-- A directed walk from `s` to `t`, written source-first: consecutive
vertices joined by directed edges. -/
def DirWalkFromTo (g : Graph) (s t : Key) (q : List Key) : Prop :=
  List.Chain' (fun a b => b ∈ succs g a) q ∧ q.head? = some s ∧ q.getLast? = some t

/-- The graph-theoretic shortest directed distance (in edges): attained by a
walk and minimal among all walks. -/
def IsShortestDistance (g : Graph) (s t : Key) (d : Nat) : Prop :=
  (∃ q, DirWalkFromTo g s t q ∧ q.length = d + 1) ∧
    ∀ q, DirWalkFromTo g s t q → d + 1 ≤ q.length

/-! ## Centrality engine (`centrality_analysis`) -/

/-- Stable insertion of `x` into a list sorted descending by `score`:
`x` is placed before the first element whose score is not larger, so
earlier-listed elements win ties. -/
def insDesc {α : Type} (score : α → ℚ) (x : α) : List α → List α
  | [] => [x]
  | y :: ys => if score y ≤ score x then x :: y :: ys else y :: insDesc score x ys

/-- Stable descending sort by score:
Python `sorted(items, key=lambda p: -p[1])`. -/
def sortDesc {α : Type} (score : α → ℚ) (l : List α) : List α :=
  l.foldr (insDesc score) []

/-- A ranking: (node, score) pairs. -/
abbrev Ranking := List (Key × ℚ)

/-- Descending sort of a ranking followed by the top-10 truncation
(`sorted(..., key=lambda x: -x[1])[:10]`). -/
def top10 (l : Ranking) : Ranking := (sortDesc Prod.snd l).take 10

/-- `nx.degree_centrality`: every node scores `1` when the graph has at most
one node, otherwise `degree(v) / (n - 1)` with `degree = in + out`. -/
def nx_degree_centrality (g : Graph) : Ranking :=
  if numNodes g ≤ 1 then (nodeKeys g).map (fun v => (v, 1))
  else (nodeKeys g).map (fun v =>
    (v, ((inDeg g v : ℚ) + (outDeg g v : ℚ)) / ((numNodes g : ℚ) - 1)))

/-- The number of shortest `s`→`t` paths (`0` when `t` is unreachable). -/
def sigmaPaths (g : Graph) (s t : Key) : List (List Key) :=
  match searchLen g s t 0 (numNodes g) with
  | some L => shortestPathsList g s t L
  | none => []

/-- The Brandes pair-dependency of `v` for the pair `(s, t)`: the fraction of
shortest `s`→`t` paths passing through the interior vertex `v`. -/
def pairDependency (g : Graph) (s t v : Key) : ℚ :=
  let all := sigmaPaths g s t
  if all.length = 0 then 0
  else ((all.filter (fun p => decide (v ∈ p))).length : ℚ) / (all.length : ℚ)

/-- `nx.betweenness_centrality` over the directed graph: sum of pair
dependencies over ordered pairs with distinct endpoints avoiding `v`,
rescaled by `1 / ((n - 1) * (n - 2))` when `n > 2`. -/
def nx_betweenness_centrality (g : Graph) : Ranking :=
  let ks := nodeKeys g
  let n := numNodes g
  ks.map (fun v =>
    let raw : ℚ :=
      (ks.flatMap (fun s => ks.map (fun t => (s, t)))
        |>.filter (fun p => decide (p.1 ≠ p.2 ∧ p.1 ≠ v ∧ p.2 ≠ v))
        |>.map (fun p => pairDependency g p.1 p.2 v)).sum
    (v, if n ≤ 2 then raw else raw / (((n : ℚ) - 1) * ((n : ℚ) - 2))))

/-- Score lookup in a rational-valued vector keyed by node. -/
def vecGet (x : Ranking) (v : Key) : ℚ :=
  match x.find? (fun p => p.1 == v) with
  | some p => p.2
  | none => 0

/-- One power-iteration step of `nx.pagerank` with damping `0.85`:
stochastic spread over out-edges, dangling mass and teleportation
redistributed uniformly. -/
def prStep (g : Graph) (x : Ranking) : Ranking :=
  let α : ℚ := 85 / 100
  let N : ℚ := (numNodes g : ℚ)
  let danglesum : ℚ :=
    α * (((nodeKeys g).filter (fun v => outDeg g v = 0)).map (vecGet x)).sum
  (nodeKeys g).map (fun v =>
    (v, α * ((preds g v).map (fun u => vecGet x u / (outDeg g u : ℚ))).sum
      + danglesum * (1 / N) + (1 - α) * (1 / N)))

/-- The power-iteration loop of `nx.pagerank`: stop when the L1 change drops
below `n * 1e-6`, raise `PowerIterationFailedConvergence` when the iteration
budget is exhausted. -/
def prIter (g : Graph) : Nat → Ranking → Except String Ranking
  | 0, _ => .error ("PowerIterationFailedConvergence")
  | fuel + 1, x =>
    let xn := prStep g x
    let err : ℚ := ((nodeKeys g).map (fun v => |vecGet xn v - vecGet x v|)).sum
    if err < (numNodes g : ℚ) * (1 / 1000000) then .ok xn else prIter g fuel xn

/-- `nx.pagerank` with its default damping `0.85`, tolerance `1e-6` and
iteration cap `100`; the empty graph yields an empty score dict. -/
def nx_pagerank (g : Graph) : Except String Ranking :=
  if numNodes g = 0 then .ok []
  else prIter g 100 ((nodeKeys g).map (fun v => (v, 1 / (numNodes g : ℚ))))

/-- `centrality_analysis`: an insertion-ordered result dict.  Empty for the
empty graph; betweenness only below 1000 nodes; pagerank only when the
`try` around `nx.pagerank` succeeds. -/
def centrality_analysis (g : Graph) : List (String × Ranking) :=
  if numNodes g = 0 then []
  else
    [("degree", top10 (nx_degree_centrality g)),
     ("in_degree", top10 ((nodeKeys g).map (fun v => (v, (inDeg g v : ℚ))))),
     ("out_degree", top10 ((nodeKeys g).map (fun v => (v, (outDeg g v : ℚ)))))]
    ++ (if numNodes g < 1000 then [("betweenness", top10 (nx_betweenness_centrality g))] else [])
    ++ (match nx_pagerank g with
        | .ok pr => [("pagerank", top10 pr)]
        | .error _ => [])

/-- Key membership in the centrality result dict. -/
def hasKey (r : List (String × Ranking)) (k : String) : Bool :=
  r.any (fun p => p.1 == k)

/-- Ranking stored under a key of the centrality result dict. -/
def getRanking (r : List (String × Ranking)) (k : String) : Ranking :=
  match r.find? (fun p => p.1 == k) with
  | some p => p.2
  | none => []

/-! ## Community detector (`community_detection`) -/

/-- An undirected graph: node keys plus undirected edges stored once per
unordered endpoint pair. -/
structure UGraph where
  nodes : List Key
  edges : List (Key × Key)
deriving Repr

/-- Add an undirected edge unless either orientation is already present. -/
def addUEdge (es : List (Key × Key)) (u v : Key) : List (Key × Key) :=
  if es.any (fun p => (p.1 == u && p.2 == v) || (p.1 == v && p.2 == u)) then es
  else es ++ [(u, v)]

/-- `G.to_undirected()`: same nodes; direction and duplicate orientations of
edges are discarded. -/
def to_undirected (g : Graph) : UGraph :=
  ⟨nodeKeys g, g.edges.foldl (fun es e => addUEdge es e.src e.dst) []⟩

/-- Degree of a node in the undirected graph (a self-loop counts twice). -/
def uDeg (ug : UGraph) (v : Key) : Nat :=
  (ug.edges.map (fun p =>
    (if p.1 == v then 1 else 0) + (if p.2 == v then 1 else 0))).sum

/-- Number of undirected edges joining the two node sets. -/
def crossEdges (ug : UGraph) (a b : List Key) : Nat :=
  (ug.edges.filter (fun p =>
    (a.contains p.1 && b.contains p.2) || (b.contains p.1 && a.contains p.2))).length

/-- Total undirected degree of a community. -/
def degSum (ug : UGraph) (a : List Key) : Nat := (a.map (uDeg ug)).sum

/-- Modularity gain of merging communities `a` and `b`
(Clauset–Newman–Moore, resolution 1, unweighted). -/
def dq (ug : UGraph) (m : ℚ) (a b : List Key) : ℚ :=
  (crossEdges ug a b : ℚ) / m - ((degSum ug a : ℚ) * (degSum ug b : ℚ)) / (2 * m ^ 2)

/-- All ways of choosing an ordered pair from a list together with the
remaining elements. -/
def pairsWithRest {α : Type} [DecidableEq α] : List α → List (α × α × List α)
  | [] => []
  | x :: xs =>
    (xs.map (fun y => (x, y, xs.erase y)))
      ++ (pairsWithRest xs).map (fun t => (t.1, t.2.1, x :: t.2.2))

/-- Fold selecting the candidate with strictly larger gain, keeping the
earlier candidate on ties. -/
def maxDqFold (ug : UGraph) (m : ℚ) (c : List Key × List Key × List (List Key))
    (l : List (List Key × List Key × List (List Key))) :
    List Key × List Key × List (List Key) :=
  l.foldl (fun best t => if dq ug m best.1 best.2.1 < dq ug m t.1 t.2.1 then t else best) c

/-- One CNM selection: among pairs of communities joined by at least one
edge, the pair of largest modularity gain, provided that gain is
nonnegative; `none` once no merge improves modularity. -/
def bestMerge (ug : UGraph) (m : ℚ) (cs : List (List Key)) :
    Option (List Key × List Key × List (List Key)) :=
  match (pairsWithRest cs).filter (fun t => 0 < crossEdges ug t.1 t.2.1) with
  | [] => none
  | c :: rest =>
    if dq ug m (maxDqFold ug m c rest).1 (maxDqFold ug m c rest).2.1 < 0 then none
    else some (maxDqFold ug m c rest)

/-- The CNM merge loop: repeatedly merge the best pair. -/
def cnmLoop (ug : UGraph) (m : ℚ) : Nat → List (List Key) → List (List Key)
  | 0, cs => cs
  | fuel + 1, cs =>
    match bestMerge ug m cs with
    | none => cs
    | some (a, b, rest) => cnmLoop ug m fuel ((a ++ b) :: rest)

/-- `nx.community.greedy_modularity_communities`: start from singleton
communities, greedily merge while modularity improves, return the partition
sorted by decreasing size.  An edgeless graph raises (`1 / m` with `m = 0`). -/
def greedy_modularity_communities (ug : UGraph) :
    Except String (List (List Key)) :=
  if ug.edges.length = 0 then .error ("ZeroDivisionError")
  else
    .ok (sortDesc (fun c : List Key => (c.length : ℚ))
      (cnmLoop ug (ug.edges.length : ℚ) ug.nodes.length (ug.nodes.map (fun v => [v]))))

/-- `community_detection`: empty list for the empty graph; any exception of
the library call is caught and also yields the empty list. -/
def community_detection (g : Graph) : List (List Key) :=
  if numNodes g = 0 then []
  else
    match greedy_modularity_communities (to_undirected g) with
    | .ok cs => cs
    | .error _ => []

/-! ## Builder lemmas -/

theorem hasNode_iff (g : Graph) (k : Key) : hasNode g k = true ↔ k ∈ nodeKeys g := by
  simp [hasNode]

theorem nodeKeys_add_node (g : Graph) (k : Key) (ps : List (Key × PropVal)) :
    nodeKeys (add_node g k ps) =
      if k ∈ nodeKeys g then nodeKeys g else nodeKeys g ++ [k] := by
  unfold add_node
  by_cases h : k ∈ nodeKeys g
  · rw [if_pos ((hasNode_iff g k).mpr h), if_pos h]
    show List.map Prod.fst (g.nodes.map _) = nodeKeys g
    rw [List.map_map]
    refine List.map_congr_left (fun p _ => ?_)
    by_cases hp : p.1 = k <;> simp [hp]
  · rw [if_neg (by simpa [hasNode_iff] using h), if_neg h]
    simp [nodeKeys]

theorem edges_add_node (g : Graph) (k : Key) (ps : List (Key × PropVal)) :
    (add_node g k ps).edges = g.edges := by
  unfold add_node; split <;> rfl

theorem nodeKeys_ensureNode (g : Graph) (k : Key) :
    nodeKeys (ensureNode g k) =
      if k ∈ nodeKeys g then nodeKeys g else nodeKeys g ++ [k] := by
  unfold ensureNode
  by_cases h : k ∈ nodeKeys g
  · rw [if_pos ((hasNode_iff g k).mpr h), if_pos h]
  · rw [if_neg (by simpa [hasNode_iff] using h), if_neg h]; simp [nodeKeys]

theorem edges_ensureNode (g : Graph) (k : Key) : (ensureNode g k).edges = g.edges := by
  unfold ensureNode; split <;> rfl

theorem mem_nodeKeys_ensureNode (g : Graph) (k x : Key) :
    x ∈ nodeKeys (ensureNode g k) ↔ x ∈ nodeKeys g ∨ x = k := by
  rw [nodeKeys_ensureNode]
  split
  · constructor
    · exact Or.inl
    · rintro (h | rfl) <;> [exact h; assumption]
  · simp

theorem edges_add_edge (g : Graph) (u v : Key) (l : String) :
    (add_edge g u v l).edges = insertEdge g.edges u v l := by
  show insertEdge (ensureNode (ensureNode g u) v).edges u v l = _
  rw [edges_ensureNode, edges_ensureNode]

theorem nodes_add_edge (g : Graph) (u v : Key) (l : String) :
    (add_edge g u v l).nodes = (ensureNode (ensureNode g u) v).nodes := rfl

theorem mem_nodeKeys_add_edge (g : Graph) (u v x : Key) (l : String) :
    x ∈ nodeKeys (add_edge g u v l) ↔ x ∈ nodeKeys g ∨ x = u ∨ x = v := by
  show x ∈ nodeKeys (ensureNode (ensureNode g u) v) ↔ _
  rw [mem_nodeKeys_ensureNode, mem_nodeKeys_ensureNode]
  tauto

theorem find?_key_append_of_mem (l₁ l₂ : List (Key × List (Key × PropVal)))
    (x : Key) (h : x ∈ l₁.map Prod.fst) :
    (l₁ ++ l₂).find? (fun p => p.1 == x) = l₁.find? (fun p => p.1 == x) := by
  rw [List.find?_append]
  refine Option.or_of_isSome ?_
  rw [List.mem_map] at h
  obtain ⟨p, hp, hx⟩ := h
  simp only [List.find?_isSome]
  exact ⟨p, hp, by simp [hx]⟩

theorem find?_key_isSome_iff (l : List (Key × List (Key × PropVal))) (x : Key) :
    (l.find? (fun p => p.1 == x)).isSome ↔ x ∈ l.map Prod.fst := by
  simp only [List.find?_isSome, List.mem_map]
  constructor
  · rintro ⟨p, hp, hx⟩; exact ⟨p, hp, by simpa using hx⟩
  · rintro ⟨p, hp, hx⟩; exact ⟨p, hp, by simp [hx]⟩

theorem lookupProps_ensureNode_of_mem (g : Graph) (k x : Key)
    (h : x ∈ nodeKeys g) :
    lookupProps (ensureNode g k) x = lookupProps g x := by
  unfold ensureNode
  split
  · rfl
  · show ((g.nodes ++ [(k, [])]).find? _).map Prod.snd = _
    rw [find?_key_append_of_mem _ _ _ h]
    rfl

theorem lookupProps_ensureNode_self (g : Graph) (k : Key)
    (h : k ∉ nodeKeys g) :
    lookupProps (ensureNode g k) k = some [] := by
  unfold ensureNode
  rw [if_neg (by simpa [hasNode_iff] using h)]
  show ((g.nodes ++ [(k, [])]).find? _).map Prod.snd = _
  rw [List.find?_append]
  have h1 : g.nodes.find? (fun p => p.1 == k) = none := by
    rw [List.find?_eq_none]
    intro p hp
    simp only [beq_iff_eq]
    intro hk
    exact h (by rw [← hk]; exact List.mem_map_of_mem Prod.fst hp)
  rw [h1]
  simp

theorem lookupProps_add_edge (g : Graph) (u v x : Key) (l : String) :
    lookupProps (add_edge g u v l) x = lookupProps (ensureNode (ensureNode g u) v) x := rfl

theorem lookupProps_add_edge_of_mem (g : Graph) (u v x : Key) (l : String)
    (h : x ∈ nodeKeys g) :
    lookupProps (add_edge g u v l) x = lookupProps g x := by
  rw [lookupProps_add_edge,
    lookupProps_ensureNode_of_mem _ _ _ (by rw [mem_nodeKeys_ensureNode]; exact Or.inl h),
    lookupProps_ensureNode_of_mem _ _ _ h]

theorem lookupProps_add_edge_new (g : Graph) (u v x : Key) (l : String)
    (h : x ∉ nodeKeys g) (hx : x ∈ nodeKeys (add_edge g u v l)) :
    lookupProps (add_edge g u v l) x = some [] := by
  rw [lookupProps_add_edge]
  rcases (mem_nodeKeys_add_edge g u v x l).mp hx with hg | rfl | rfl
  · exact absurd hg h
  · by_cases hv : x ∈ nodeKeys (ensureNode g x)
    · rw [lookupProps_ensureNode_of_mem _ _ _ hv]
      exact lookupProps_ensureNode_self g x h
    · exact absurd ((mem_nodeKeys_ensureNode g x x).mpr (Or.inr rfl)) hv
  · by_cases hv : x ∈ nodeKeys (ensureNode g u)
    · rw [lookupProps_ensureNode_of_mem _ _ _ hv]
      have hu : x = u := by
        rcases (mem_nodeKeys_ensureNode g u x).mp hv with hg | rfl
        · exact absurd hg h
        · rfl
      subst hu
      exact lookupProps_ensureNode_self g x h
    · exact lookupProps_ensureNode_self _ x hv

theorem mem_nodeKeys_add_node (g : Graph) (k : Key) (ps : List (Key × PropVal)) (x : Key) :
    x ∈ nodeKeys (add_node g k ps) ↔ x ∈ nodeKeys g ∨ x = k := by
  rw [nodeKeys_add_node]
  split
  · constructor
    · exact Or.inl
    · rintro (h | rfl) <;> [exact h; assumption]
  · simp

theorem mem_nodeKeys_foldl_add_node (ns : List (Key × NodeRec)) (g : Graph) (x : Key) :
    x ∈ nodeKeys (ns.foldl (fun g p => add_node g p.1 (p.2.props.getD [])) g) ↔
      x ∈ nodeKeys g ∨ ∃ p ∈ ns, x = p.1 := by
  induction ns generalizing g with
  | nil => simp
  | cons p ps ih =>
    rw [List.foldl_cons, ih, mem_nodeKeys_add_node]
    simp only [List.mem_cons]
    constructor
    · rintro ((h | rfl) | ⟨q, hq, rfl⟩)
      · exact Or.inl h
      · exact Or.inr ⟨p, Or.inl rfl, rfl⟩
      · exact Or.inr ⟨q, Or.inr hq, rfl⟩
    · rintro (h | ⟨q, (rfl | hq), rfl⟩)
      · exact Or.inl (Or.inl h)
      · exact Or.inl (Or.inr rfl)
      · exact Or.inr ⟨q, hq, rfl⟩

theorem edges_foldl_add_node (ns : List (Key × NodeRec)) (g : Graph) :
    (ns.foldl (fun g p => add_node g p.1 (p.2.props.getD [])) g).edges = g.edges := by
  induction ns generalizing g with
  | nil => rfl
  | cons p ps ih => rw [List.foldl_cons, ih, edges_add_node]

theorem mem_nodeKeys_foldl_add_edge (es : List EdgeRec) (g : Graph) (x : Key) :
    x ∈ nodeKeys (es.foldl (fun g e => add_edge g e.From e.To (e.Label.getD (""))) g) ↔
      x ∈ nodeKeys g ∨ ∃ e ∈ es, x = e.From ∨ x = e.To := by
  induction es generalizing g with
  | nil => simp
  | cons e es ih =>
    rw [List.foldl_cons, ih, mem_nodeKeys_add_edge]
    simp only [List.mem_cons]
    constructor
    · rintro ((h | rfl | rfl) | ⟨f, hf, hx⟩)
      · exact Or.inl h
      · exact Or.inr ⟨e, Or.inl rfl, Or.inl rfl⟩
      · exact Or.inr ⟨e, Or.inl rfl, Or.inr rfl⟩
      · exact Or.inr ⟨f, Or.inr hf, hx⟩
    · rintro (h | ⟨f, (rfl | hf), hx⟩)
      · exact Or.inl (Or.inl h)
      · exact Or.inl (Or.inr hx)
      · exact Or.inr ⟨f, hf, hx⟩

theorem props_foldl_add_edge (es : List EdgeRec) (g : Graph) (x : Key)
    (h : x ∈ nodeKeys g → lookupProps g x = some []) :
    x ∈ nodeKeys (es.foldl (fun g e => add_edge g e.From e.To (e.Label.getD (""))) g) →
      lookupProps (es.foldl (fun g e => add_edge g e.From e.To (e.Label.getD (""))) g) x = some [] := by
  induction es generalizing g with
  | nil => exact h
  | cons e es ih =>
    rw [List.foldl_cons]
    refine ih _ ?_
    intro hx
    by_cases hg : x ∈ nodeKeys g
    · rw [lookupProps_add_edge_of_mem _ _ _ _ _ hg]; exact h hg
    · exact lookupProps_add_edge_new _ _ _ _ _ hg hx

/-- C2: after building, node existence is exactly the union of declared keys
and edge-endpoint keys; every edge endpoint exists; an endpoint that was not
declared is created with an empty attribute set. -/
theorem C2_implicit_node_creation (ns : List (Key × NodeRec)) (es : List EdgeRec) :
    (∀ x, x ∈ nodeKeys (buildGraph ns es) ↔
        ((∃ p ∈ ns, x = p.1) ∨ ∃ e ∈ es, x = e.From ∨ x = e.To)) ∧
    (∀ e ∈ es, e.From ∈ nodeKeys (buildGraph ns es) ∧ e.To ∈ nodeKeys (buildGraph ns es)) ∧
    (∀ x, (¬ ∃ p ∈ ns, x = p.1) → (∃ e ∈ es, x = e.From ∨ x = e.To) →
        lookupProps (buildGraph ns es) x = some []) := by
  have hmem : ∀ x, x ∈ nodeKeys (buildGraph ns es) ↔
      ((∃ p ∈ ns, x = p.1) ∨ ∃ e ∈ es, x = e.From ∨ x = e.To) := by
    intro x
    show x ∈ nodeKeys (es.foldl _ (ns.foldl _ emptyGraph)) ↔ _
    rw [mem_nodeKeys_foldl_add_edge, mem_nodeKeys_foldl_add_node]
    simp [emptyGraph, nodeKeys]
  refine ⟨hmem, ?_, ?_⟩
  · intro e he
    exact ⟨(hmem e.From).mpr (Or.inr ⟨e, he, Or.inl rfl⟩),
           (hmem e.To).mpr (Or.inr ⟨e, he, Or.inr rfl⟩)⟩
  · intro x hdecl hend
    show lookupProps (es.foldl _ (ns.foldl _ emptyGraph)) x = some []
    refine props_foldl_add_edge _ _ _ ?_ ?_
    · intro hx
      rw [mem_nodeKeys_foldl_add_node] at hx
      rcases hx with hx | hx
      · simp [emptyGraph, nodeKeys] at hx
      · exact absurd hx hdecl
    · exact (hmem x).mpr (Or.inr hend)

theorem C2_implicit_node_creation_witness :
    lookupProps (buildGraph [("a", ⟨some [("color", "red")]⟩)] [⟨"a", "b", none⟩]) "b" = some [] ∧
    "b" ∈ nodeKeys (buildGraph [("a", ⟨some [("color", "red")]⟩)] [⟨"a", "b", none⟩]) := by
  refine ⟨(C2_implicit_node_creation _ _).2.2 ("b") (by simp) ⟨⟨"a", "b", none⟩, by simp, Or.inr rfl⟩, ?_⟩
  exact ((C2_implicit_node_creation _ _).2.1 ⟨"a", "b", none⟩ (by simp)).2

/-- C5 counterexample: a payload missing the expected `"nodes"` key does NOT
propagate as an unhandled fault: the `KeyError` raised inside the `try` body
is caught by the blanket `except Exception` clause and `fetch_graph` returns
the ordinary value `False` (after which `main` exits with code 1). -/
theorem C5_counterexample :
    buildFromPayload ⟨none, some []⟩ = Except.error ("KeyError: nodes") ∧
    fetch_graph ⟨none, some []⟩ = false ∧
    mainExitCode ⟨none, some []⟩ = 1 :=
  ⟨rfl, rfl, rfl⟩

/-- C5 amended: a malformed payload (missing `"nodes"` or `"edges"`) raises
inside the `try` body, but the exception is caught by the generic handler:
`fetch_graph` returns `False` with a diagnostic, and the run terminates with
exit code 1 rather than crashing with an unhandled fault. -/
theorem C5_malformed_payload_caught (p : RawPayload)
    (h : p.nodes = none ∨ p.edges = none) :
    (∃ msg, buildFromPayload p = .error msg) ∧
    fetch_graph p = false ∧ mainExitCode p = 1 := by
  have herr : ∃ msg, buildFromPayload p = .error msg := by
    obtain ⟨pn, pe⟩ := p
    rcases h with h | h <;> simp only at h <;> subst h
    · exact ⟨"KeyError: nodes", rfl⟩
    · cases pn with
      | none => exact ⟨"KeyError: nodes", rfl⟩
      | some ns => exact ⟨"KeyError: edges", rfl⟩
  obtain ⟨msg, hmsg⟩ := herr
  refine ⟨⟨msg, hmsg⟩, ?_, ?_⟩ <;> simp [fetch_graph, mainExitCode, hmsg]

theorem C5_malformed_payload_caught_witness :
    (∃ msg, buildFromPayload ⟨some [], none⟩ = .error msg) ∧
    fetch_graph ⟨some [], none⟩ = false ∧ mainExitCode ⟨some [], none⟩ = 1 :=
  C5_malformed_payload_caught ⟨some [], none⟩ (Or.inr rfl)

/-! ## Structural invariants of built graphs -/

theorem nodup_nodeKeys_add_node (g : Graph) (k : Key) (ps : List (Key × PropVal))
    (h : (nodeKeys g).Nodup) : (nodeKeys (add_node g k ps)).Nodup := by
  rw [nodeKeys_add_node]
  by_cases hk : k ∈ nodeKeys g
  · rwa [if_pos hk]
  · rw [if_neg hk]
    simp [List.nodup_append, h, hk]

theorem nodup_nodeKeys_ensureNode (g : Graph) (k : Key)
    (h : (nodeKeys g).Nodup) : (nodeKeys (ensureNode g k)).Nodup := by
  rw [nodeKeys_ensureNode]
  by_cases hk : k ∈ nodeKeys g
  · rwa [if_pos hk]
  · rw [if_neg hk]
    simp [List.nodup_append, h, hk]

theorem nodup_nodeKeys_add_edge (g : Graph) (u v : Key) (l : String)
    (h : (nodeKeys g).Nodup) : (nodeKeys (add_edge g u v l)).Nodup := by
  show (nodeKeys (ensureNode (ensureNode g u) v)).Nodup
  exact nodup_nodeKeys_ensureNode _ _ (nodup_nodeKeys_ensureNode _ _ h)

theorem buildGraph_nodupKeys (ns : List (Key × NodeRec)) (es : List EdgeRec) :
    (nodeKeys (buildGraph ns es)).Nodup := by
  have h1 : ∀ (l : List (Key × NodeRec)) (g : Graph), (nodeKeys g).Nodup →
      (nodeKeys (l.foldl (fun g p => add_node g p.1 (p.2.props.getD [])) g)).Nodup := by
    intro l
    induction l with
    | nil => exact fun g h => h
    | cons p ps ih => exact fun g h => ih _ (nodup_nodeKeys_add_node _ _ _ h)
  have h2 : ∀ (l : List EdgeRec) (g : Graph), (nodeKeys g).Nodup →
      (nodeKeys (l.foldl (fun g e => add_edge g e.From e.To (e.Label.getD (""))) g)).Nodup := by
    intro l
    induction l with
    | nil => exact fun g h => h
    | cons e es ih => exact fun g h => ih _ (nodup_nodeKeys_add_edge _ _ _ _ h)
  exact h2 _ _ (h1 _ _ (by simp [emptyGraph, nodeKeys]))

theorem mem_insertEdge (es : List Edge) (u v : Key) (l : String) (e' : Edge)
    (h : e' ∈ insertEdge es u v l) : e' ∈ es ∨ (e'.src = u ∧ e'.dst = v) := by
  unfold insertEdge at h
  split at h
  · rw [List.mem_map] at h
    obtain ⟨e, he, hmap⟩ := h
    by_cases hc : (e.src == u && e.dst == v) = true
    · rw [if_pos hc] at hmap
      exact Or.inr (by rw [← hmap]; exact ⟨rfl, rfl⟩)
    · rw [if_neg hc] at hmap
      exact Or.inl (hmap ▸ he)
  · rw [List.mem_append] at h
    rcases h with h | h
    · exact Or.inl h
    · have : e' = ⟨u, v, l⟩ := by simpa using h
      exact Or.inr (by rw [this]; exact ⟨rfl, rfl⟩)

theorem wf_add_edge (g : Graph) (u v : Key) (l : String) (h : Wf g) :
    Wf (add_edge g u v l) := by
  intro e he
  rw [edges_add_edge] at he
  rcases mem_insertEdge _ _ _ _ _ he with he' | ⟨h1, h2⟩
  · obtain ⟨hs, hd⟩ := h e he'
    exact ⟨(mem_nodeKeys_add_edge g u v _ l).mpr (Or.inl hs),
           (mem_nodeKeys_add_edge g u v _ l).mpr (Or.inl hd)⟩
  · exact ⟨(mem_nodeKeys_add_edge g u v _ l).mpr (Or.inr (Or.inl h1)),
           (mem_nodeKeys_add_edge g u v _ l).mpr (Or.inr (Or.inr h2))⟩

theorem wf_add_node (g : Graph) (k : Key) (ps : List (Key × PropVal)) (h : Wf g) :
    Wf (add_node g k ps) := by
  intro e he
  rw [edges_add_node] at he
  obtain ⟨hs, hd⟩ := h e he
  exact ⟨(mem_nodeKeys_add_node g k ps _).mpr (Or.inl hs),
         (mem_nodeKeys_add_node g k ps _).mpr (Or.inl hd)⟩

theorem buildGraph_wf (ns : List (Key × NodeRec)) (es : List EdgeRec) :
    Wf (buildGraph ns es) := by
  have h1 : ∀ (l : List (Key × NodeRec)) (g : Graph), Wf g →
      Wf (l.foldl (fun g p => add_node g p.1 (p.2.props.getD [])) g) := by
    intro l
    induction l with
    | nil => exact fun g h => h
    | cons p ps ih => exact fun g h => ih _ (wf_add_node _ _ _ h)
  have h2 : ∀ (l : List EdgeRec) (g : Graph), Wf g →
      Wf (l.foldl (fun g e => add_edge g e.From e.To (e.Label.getD (""))) g) := by
    intro l
    induction l with
    | nil => exact fun g h => h
    | cons e es ih => exact fun g h => ih _ (wf_add_edge _ _ _ _ h)
  exact h2 _ _ (h1 _ _ (by intro e he; simp [emptyGraph] at he))

theorem pairs_insertEdge (es : List Edge) (u v : Key) (l : String)
    (h : (es.map (fun e => (e.src, e.dst))).Nodup) :
    ((insertEdge es u v l).map (fun e => (e.src, e.dst))).Nodup := by
  unfold insertEdge
  split
  · have heq : ((es.map (fun e => if e.src == u && e.dst == v then (⟨u, v, l⟩ : Edge) else e)).map
        (fun e => (e.src, e.dst))) = es.map (fun e => (e.src, e.dst)) := by
      rw [List.map_map]
      refine List.map_congr_left (fun e _ => ?_)
      by_cases hc : (e.src == u && e.dst == v) = true
      · have hc' : e.src = u ∧ e.dst = v := by simpa using hc
        simp [hc, hc'.1, hc'.2]
      · have hc' : ¬(e.src = u ∧ e.dst = v) := by simpa using hc
        simp [hc, hc']
    rwa [heq]
  · rename_i hno
    rw [List.map_append]
    simp only [List.map_cons, List.map_nil]
    rw [List.nodup_append]
    refine ⟨h, List.nodup_singleton _, ?_⟩
    intro p hp
    simp only [List.mem_singleton]
    intro hq
    subst hq
    obtain ⟨e, he, hpair⟩ := List.mem_map.mp hp
    refine hno ?_
    rw [List.any_eq_true]
    refine ⟨e, he, ?_⟩
    have h1 : e.src = u := congrArg Prod.fst hpair
    have h2 : e.dst = v := congrArg Prod.snd hpair
    simp [h1, h2]

theorem buildGraph_pairsNodup (ns : List (Key × NodeRec)) (es : List EdgeRec) :
    EdgePairsNodup (buildGraph ns es) := by
  have h2 : ∀ (l : List EdgeRec) (g : Graph), EdgePairsNodup g →
      EdgePairsNodup (l.foldl (fun g e => add_edge g e.From e.To (e.Label.getD (""))) g) := by
    intro l
    induction l with
    | nil => exact fun g h => h
    | cons e es ih =>
      intro g h
      refine ih _ ?_
      show ((add_edge g e.From e.To (e.Label.getD (""))).edges.map _).Nodup
      rw [edges_add_edge]
      exact pairs_insertEdge _ _ _ _ h
  refine h2 _ _ ?_
  show (((ns.foldl _ emptyGraph).edges).map _).Nodup
  rw [edges_foldl_add_node]
  exact List.nodup_nil

theorem mem_edges_foldl_add_edge (es : List EdgeRec) (g : Graph) (e' : Edge)
    (h : e' ∈ (es.foldl (fun g e => add_edge g e.From e.To (e.Label.getD (""))) g).edges) :
    e' ∈ g.edges ∨ ∃ er ∈ es, e'.src = er.From ∧ e'.dst = er.To := by
  induction es generalizing g with
  | nil => exact Or.inl h
  | cons e es ih =>
    rw [List.foldl_cons] at h
    rcases ih _ h with h' | ⟨er, her, hpp⟩
    · rw [edges_add_edge] at h'
      rcases mem_insertEdge _ _ _ _ _ h' with h'' | hp
      · exact Or.inl h''
      · exact Or.inr ⟨e, List.mem_cons_self e es, hp⟩
    · exact Or.inr ⟨er, List.mem_cons_of_mem e her, hpp⟩

theorem buildGraph_edge_pairs (ns : List (Key × NodeRec)) (es : List EdgeRec)
    (e' : Edge) (h : e' ∈ (buildGraph ns es).edges) :
    ∃ er ∈ es, e'.src = er.From ∧ e'.dst = er.To := by
  rcases mem_edges_foldl_add_edge es _ e' h with h' | h'
  · rw [edges_foldl_add_node] at h'
    simp [emptyGraph] at h'
  · exact h'

theorem numEdges_le (g : Graph) (hnd : (nodeKeys g).Nodup) (hwf : Wf g)
    (hpn : EdgePairsNodup g) (hsl : ∀ e ∈ g.edges, e.src ≠ e.dst) :
    numEdges g ≤ numNodes g * numNodes g - numNodes g := by
  classical
  have hl : (g.edges.map (fun e => (e.src, e.dst))).Nodup := hpn
  have hlen : (g.edges.map (fun e => (e.src, e.dst))).length = numEdges g := by
    simp [numEdges]
  have hcard : (g.edges.map (fun e => (e.src, e.dst))).toFinset.card
      = (g.edges.map (fun e => (e.src, e.dst))).length :=
    List.toFinset_card_of_nodup hl
  have hsub : (g.edges.map (fun e => (e.src, e.dst))).toFinset
      ⊆ (nodeKeys g).toFinset.offDiag := by
    intro p hp
    rw [List.mem_toFinset] at hp
    obtain ⟨e, he, rfl⟩ := List.mem_map.mp hp
    rw [Finset.mem_offDiag]
    obtain ⟨h1, h2⟩ := hwf e he
    exact ⟨by simpa using h1, by simpa using h2, hsl e he⟩
  have hle := Finset.card_le_card hsub
  rw [hcard, hlen, Finset.offDiag_card] at hle
  have hkc : (nodeKeys g).toFinset.card = numNodes g := by
    rw [List.toFinset_card_of_nodup hnd]
    simp [nodeKeys, numNodes]
  rw [hkc] at hle
  exact hle

/-- C3 counterexample: the builder accepts self-loop edge records, and on a
2-node graph with a self-loop plus both cross edges, `nx.density` evaluates
to `3/2`, outside `[0, 1]` — the claimed bound fails for builder-producible
graphs. -/
theorem C3_counterexample :
    nx_density (buildGraph [] [⟨"a", "a", none⟩, ⟨"a", "b", none⟩, ⟨"b", "a", none⟩]) = 3 / 2 ∧
    ¬ nx_density (buildGraph [] [⟨"a", "a", none⟩, ⟨"a", "b", none⟩, ⟨"b", "a", none⟩]) ≤ 1 := by
  constructor <;> with_unfolding_all decide

/-- C3 amended: `density` is `0` when `node_count < 2` and equals
`edges / (nodes * (nodes - 1))` when `node_count ≥ 2`; and the value lies in
`[0, 1]` for every graph with well-formed, deduplicated edges that contains
NO self-loop edge (the self-loop-free restriction is forced by the
counterexample; graphs built from self-loop-free payloads satisfy it). -/
theorem C3_density_bounds (g : Graph) (hnd : (nodeKeys g).Nodup) (hwf : Wf g)
    (hpn : EdgePairsNodup g) (hsl : ∀ e ∈ g.edges, e.src ≠ e.dst) :
    (numNodes g < 2 → nx_density g = 0) ∧
    (2 ≤ numNodes g →
      nx_density g = (numEdges g : ℚ) / ((numNodes g : ℚ) * ((numNodes g : ℚ) - 1))) ∧
    0 ≤ nx_density g ∧ nx_density g ≤ 1 := by
  have hm := numEdges_le g hnd hwf hpn hsl
  refine ⟨?_, ?_, ?_, ?_⟩
  · intro h
    rw [nx_density, if_pos (Or.inr (by omega))]
  · intro h
    by_cases hz : numEdges g = 0
    · rw [nx_density, if_pos (Or.inl hz), hz]
      simp
    · rw [nx_density, if_neg (by push_neg; exact ⟨hz, by omega⟩)]
  · unfold nx_density
    split
    · exact le_refl 0
    · rename_i hcond
      push_neg at hcond
      have hn : 2 ≤ numNodes g := by omega
      refine div_nonneg (by positivity) ?_
      have : (2 : ℚ) ≤ (numNodes g : ℚ) := by exact_mod_cast hn
      nlinarith
  · unfold nx_density
    split
    · exact zero_le_one
    · rename_i hcond
      push_neg at hcond
      have hn : 2 ≤ numNodes g := hcond.2
      have hnq : (2 : ℚ) ≤ (numNodes g : ℚ) := by exact_mod_cast hn
      have hpos : (0 : ℚ) < (numNodes g : ℚ) * ((numNodes g : ℚ) - 1) := by nlinarith
      rw [div_le_one hpos]
      have hmq : (numEdges g : ℚ) ≤ ((numNodes g * numNodes g - numNodes g : Nat) : ℚ) := by
        exact_mod_cast hm
      have hcast : ((numNodes g * numNodes g - numNodes g : Nat) : ℚ)
          = (numNodes g : ℚ) * (numNodes g : ℚ) - (numNodes g : ℚ) := by
        have : numNodes g ≤ numNodes g * numNodes g := Nat.le_mul_of_pos_left _ (by omega)
        push_cast [Nat.cast_sub this]
        ring
      rw [hcast] at hmq
      nlinarith

theorem C3_density_bounds_witness :
    (nodeKeys (buildGraph [] [⟨"a", "b", none⟩])).Nodup ∧
    Wf (buildGraph [] [⟨"a", "b", none⟩]) ∧
    EdgePairsNodup (buildGraph [] [⟨"a", "b", none⟩]) ∧
    (∀ e ∈ (buildGraph [] [⟨"a", "b", none⟩]).edges, e.src ≠ e.dst) ∧
    (0 ≤ nx_density (buildGraph [] [⟨"a", "b", none⟩]) ∧
      nx_density (buildGraph [] [⟨"a", "b", none⟩]) ≤ 1) :=
  ⟨by decide, by unfold Wf; decide, by unfold EdgePairsNodup; decide, by decide,
    (C3_density_bounds _ (by decide) (by unfold Wf; decide)
      (by unfold EdgePairsNodup; decide) (by decide)).2.2⟩

/-! ## Sorting lemmas and the centrality result dict -/

theorem mem_insDesc {α : Type} (score : α → ℚ) (x : α) (l : List α) (y : α) :
    y ∈ insDesc score x l ↔ y = x ∨ y ∈ l := by
  induction l with
  | nil => simp [insDesc]
  | cons z zs ih =>
    unfold insDesc
    split
    · simp [List.mem_cons]
    · simp only [List.mem_cons, ih]
      tauto

theorem sortDesc_cons {α : Type} (score : α → ℚ) (x : α) (l : List α) :
    sortDesc score (x :: l) = insDesc score x (sortDesc score l) := rfl

theorem mem_sortDesc {α : Type} (score : α → ℚ) (l : List α) (y : α) :
    y ∈ sortDesc score l ↔ y ∈ l := by
  induction l with
  | nil => simp [sortDesc]
  | cons z zs ih =>
    rw [sortDesc_cons, mem_insDesc, ih, List.mem_cons]

theorem mem_top10 (l : Ranking) (y : Key × ℚ) (h : y ∈ top10 l) : y ∈ l :=
  (mem_sortDesc _ _ _).mp (List.take_subset _ _ h)

theorem centrality_degree_entry (g : Graph) (h : numNodes g ≠ 0) :
    getRanking (centrality_analysis g) "degree" = top10 (nx_degree_centrality g) := by
  unfold centrality_analysis getRanking
  rw [if_neg h]
  simp

theorem hasKey_degree (g : Graph) (h : numNodes g ≠ 0) :
    hasKey (centrality_analysis g) "degree" = true := by
  unfold centrality_analysis hasKey
  rw [if_neg h]
  simp

theorem hasKey_in_degree (g : Graph) (h : numNodes g ≠ 0) :
    hasKey (centrality_analysis g) "in_degree" = true := by
  unfold centrality_analysis hasKey
  rw [if_neg h]
  simp

theorem hasKey_out_degree (g : Graph) (h : numNodes g ≠ 0) :
    hasKey (centrality_analysis g) "out_degree" = true := by
  unfold centrality_analysis hasKey
  rw [if_neg h]
  simp

theorem hasKey_betweenness (g : Graph) (h : numNodes g ≠ 0) :
    hasKey (centrality_analysis g) "betweenness" = decide (numNodes g < 1000) := by
  unfold centrality_analysis hasKey
  rw [if_neg h]
  cases hpr : nx_pagerank g <;> by_cases hlt : numNodes g < 1000 <;>
    simp [hlt, List.any_append]

theorem hasKey_pagerank (g : Graph) (h : numNodes g ≠ 0) :
    hasKey (centrality_analysis g) "pagerank" = (nx_pagerank g).isOk := by
  unfold centrality_analysis hasKey
  rw [if_neg h]
  cases hpr : nx_pagerank g <;> by_cases hlt : numNodes g < 1000 <;>
    simp [hlt, List.any_append, Except.isOk, Except.toBool]

/-- C4 counterexample: on a graph with exactly one node, the degree ranking
scores that node `1` (the networkx `degree_centrality` convention for
`len(G) <= 1`), not `0` as the claim states. -/
theorem C4_counterexample :
    numNodes (buildGraph [("a", ⟨none⟩)] []) = 1 ∧
    getRanking (centrality_analysis (buildGraph [("a", ⟨none⟩)] [])) "degree" = [("a", 1)] ∧
    (1 : ℚ) ≠ 0 := by
  refine ⟨rfl, ?_, by norm_num⟩
  with_unfolding_all decide

/-- C4 amended: for `n > 1` every degree-centrality score in the "degree"
ranking equals `(in_degree + out_degree) / (n - 1)`; for a single-node graph
the score is `1` (networkx convention), not `0`; for the empty graph the
centrality result is the empty dict, so no scores exist at all. -/
theorem C4_degree_centrality (g : Graph) :
    (1 < numNodes g → ∀ v s, (v, s) ∈ getRanking (centrality_analysis g) "degree" →
        s = ((inDeg g v : ℚ) + (outDeg g v : ℚ)) / ((numNodes g : ℚ) - 1)) ∧
    (numNodes g = 1 → ∀ v s, (v, s) ∈ getRanking (centrality_analysis g) "degree" → s = 1) ∧
    (numNodes g = 0 → centrality_analysis g = []) := by
  refine ⟨?_, ?_, ?_⟩
  · intro h v s hm
    rw [centrality_degree_entry g (by omega)] at hm
    have hm' := mem_top10 _ _ hm
    unfold nx_degree_centrality at hm'
    rw [if_neg (by omega)] at hm'
    obtain ⟨v', _, hv⟩ := List.mem_map.mp hm'
    obtain ⟨h1, h2⟩ := Prod.mk.injEq .. ▸ hv
    rw [← h2, h1]
  · intro h v s hm
    rw [centrality_degree_entry g (by omega)] at hm
    have hm' := mem_top10 _ _ hm
    unfold nx_degree_centrality at hm'
    rw [if_pos (by omega)] at hm'
    obtain ⟨v', _, hv⟩ := List.mem_map.mp hm'
    exact (Prod.mk.injEq .. ▸ hv).2.symm
  · intro h
    unfold centrality_analysis
    rw [if_pos h]

theorem C4_degree_centrality_witness :
    1 < numNodes (buildGraph [] [⟨"a", "b", none⟩]) ∧
    (∀ v s, (v, s) ∈ getRanking (centrality_analysis (buildGraph [] [⟨"a", "b", none⟩])) "degree" →
      s = ((inDeg (buildGraph [] [⟨"a", "b", none⟩]) v : ℚ)
            + (outDeg (buildGraph [] [⟨"a", "b", none⟩]) v : ℚ))
          / ((numNodes (buildGraph [] [⟨"a", "b", none⟩]) : ℚ) - 1)) :=
  ⟨by decide, (C4_degree_centrality _).1 (by decide)⟩

/-- C6 counterexample: the empty graph has fewer than 1000 nodes, yet the
centrality result is the empty dict, so no "betweenness" key is present —
the claimed "iff node_count < 1000" fails at `node_count = 0`. -/
theorem C6_counterexample :
    numNodes emptyGraph < 1000 ∧
    centrality_analysis emptyGraph = [] ∧
    hasKey (centrality_analysis emptyGraph) "betweenness" = false :=
  ⟨by decide, rfl, rfl⟩

/-- C6 amended: the "betweenness" key is present iff `0 < node_count < 1000`
(the empty graph short-circuits to an empty dict); for `node_count ≥ 1000`
the key is absent while degree, in-degree and out-degree rankings are still
produced. -/
theorem C6_betweenness_gate (g : Graph) :
    (hasKey (centrality_analysis g) "betweenness" = true ↔
      0 < numNodes g ∧ numNodes g < 1000) ∧
    (1000 ≤ numNodes g →
      hasKey (centrality_analysis g) "degree" = true ∧
      hasKey (centrality_analysis g) "in_degree" = true ∧
      hasKey (centrality_analysis g) "out_degree" = true ∧
      hasKey (centrality_analysis g) "betweenness" = false) := by
  by_cases h0 : numNodes g = 0
  · constructor
    · have hz : centrality_analysis g = [] := by
        unfold centrality_analysis
        rw [if_pos h0]
      rw [hz]
      simp [hasKey]
      omega
    · intro h
      omega
  · constructor
    · rw [hasKey_betweenness g h0]
      simp
      omega
    · intro h
      refine ⟨hasKey_degree g h0, hasKey_in_degree g h0, hasKey_out_degree g h0, ?_⟩
      rw [hasKey_betweenness g h0]
      simp
      omega

/-- C7: the "pagerank" key is present iff the `nx.pagerank` call succeeds —
a convergence failure is swallowed by the `try`/`except` and merely omits
the key, while the degree, in-degree and out-degree rankings are produced
and `centrality_analysis` still returns a normal (total) result. -/
theorem C7_pagerank_best_effort (g : Graph) (h0 : 0 < numNodes g) :
    hasKey (centrality_analysis g) "pagerank" = (nx_pagerank g).isOk ∧
    hasKey (centrality_analysis g) "degree" = true ∧
    hasKey (centrality_analysis g) "in_degree" = true ∧
    hasKey (centrality_analysis g) "out_degree" = true :=
  ⟨hasKey_pagerank g (by omega), hasKey_degree g (by omega),
   hasKey_in_degree g (by omega), hasKey_out_degree g (by omega)⟩

theorem C7_pagerank_best_effort_witness :
    0 < numNodes (buildGraph [("a", ⟨none⟩)] []) ∧
    (hasKey (centrality_analysis (buildGraph [("a", ⟨none⟩)] [])) "pagerank"
      = (nx_pagerank (buildGraph [("a", ⟨none⟩)] [])).isOk ∧
     hasKey (centrality_analysis (buildGraph [("a", ⟨none⟩)] [])) "degree" = true ∧
     hasKey (centrality_analysis (buildGraph [("a", ⟨none⟩)] [])) "in_degree" = true ∧
     hasKey (centrality_analysis (buildGraph [("a", ⟨none⟩)] [])) "out_degree" = true) :=
  ⟨by decide, C7_pagerank_best_effort _ (by decide)⟩

/-! ## Bounded reachability -/

theorem reachLe_zero_iff (f : Key → List Key) (a b : Key) :
    ReachLe f 0 a b ↔ a = b := Iff.rfl

theorem reachLe_succ_iff (f : Key → List Key) (n : Nat) (a b : Key) :
    ReachLe f (n + 1) a b ↔ a = b ∨ ∃ c ∈ f a, ReachLe f n c b := Iff.rfl

theorem reachLe_refl (f : Key → List Key) (n : Nat) (a : Key) : ReachLe f n a a := by
  cases n with
  | zero => exact rfl
  | succ n => exact Or.inl rfl

theorem reachLe_succ (f : Key → List Key) (n : Nat) (a b : Key)
    (h : ReachLe f n a b) : ReachLe f (n + 1) a b := by
  induction n generalizing a with
  | zero => exact Or.inl h
  | succ n ih =>
    rcases h with rfl | ⟨c, hc, h⟩
    · exact Or.inl rfl
    · exact Or.inr ⟨c, hc, ih c h⟩

theorem reachLe_mono (f : Key → List Key) {n m : Nat} (h : n ≤ m) (a b : Key)
    (hr : ReachLe f n a b) : ReachLe f m a b := by
  induction m with
  | zero =>
    have : n = 0 := Nat.le_zero.mp h
    subst this
    exact hr
  | succ m ih =>
    rcases Nat.lt_or_ge n (m + 1) with hlt | hge
    · exact reachLe_succ f m a b (ih (by omega))
    · have : n = m + 1 := by omega
      subst this
      exact hr

theorem reachLe_tail (f : Key → List Key) (n : Nat) (a b c : Key)
    (h : ReachLe f n a b) (hbc : c ∈ f b) : ReachLe f (n + 1) a c := by
  induction n generalizing a with
  | zero =>
    rw [reachLe_zero_iff] at h
    subst h
    exact Or.inr ⟨c, hbc, rfl⟩
  | succ n ih =>
    rcases h with rfl | ⟨d, hd, h⟩
    · exact Or.inr ⟨c, hbc, reachLe_refl f (n + 1) c⟩
    · exact Or.inr ⟨d, hd, ih d h⟩

theorem reachLe_to_rtg (f : Key → List Key) (n : Nat) (a b : Key)
    (h : ReachLe f n a b) : Relation.ReflTransGen (stepRel f) a b := by
  induction n generalizing a with
  | zero =>
    rw [reachLe_zero_iff] at h
    subst h
    exact Relation.ReflTransGen.refl
  | succ n ih =>
    rcases h with rfl | ⟨c, hc, h⟩
    · exact Relation.ReflTransGen.refl
    · exact Relation.ReflTransGen.head hc (ih c h)

theorem rtg_to_reachLe (f : Key → List Key) (a b : Key)
    (h : Relation.ReflTransGen (stepRel f) a b) : ∃ n, ReachLe f n a b := by
  induction h with
  | refl => exact ⟨0, rfl⟩
  | tail _ hstep ih =>
    obtain ⟨n, hn⟩ := ih
    exact ⟨n + 1, reachLe_tail f n _ _ _ hn hstep⟩

theorem mem_reachStep (f : Key → List Key) (s : List Key) (x : Key) :
    x ∈ reachStep f s ↔ x ∈ s ∨ ∃ a ∈ s, x ∈ f a := by
  simp [reachStep]

theorem mem_reachIter (f : Key → List Key) (k : Nat) (s : List Key) (x : Key) :
    x ∈ reachIter f k s ↔ ∃ a ∈ s, ReachLe f k a x := by
  induction k generalizing s with
  | zero =>
    show x ∈ s ↔ _
    constructor
    · exact fun h => ⟨x, h, rfl⟩
    · rintro ⟨a, ha, h⟩
      rw [reachLe_zero_iff] at h
      subst h
      exact ha
  | succ k ih =>
    show x ∈ reachIter f k (reachStep f s) ↔ _
    rw [ih]
    constructor
    · rintro ⟨a, ha, h⟩
      rcases (mem_reachStep f s a).mp ha with ha' | ⟨b, hb, hab⟩
      · exact ⟨a, ha', reachLe_succ f k a x h⟩
      · exact ⟨b, hb, Or.inr ⟨a, hab, h⟩⟩
    · rintro ⟨a, ha, h⟩
      rcases h with rfl | ⟨c, hc, h⟩
      · exact ⟨a, (mem_reachStep f s a).mpr (Or.inl ha), reachLe_refl f k a⟩
      · exact ⟨c, (mem_reachStep f s c).mpr (Or.inr ⟨a, ha, hc⟩), h⟩

theorem walk_to_reachLe (f : Key → List Key) (p : List Key) :
    ∀ (n : Nat) (a b : Key), List.Chain' (fun u v => v ∈ f u) (a :: p) →
      (a :: p).getLast? = some b → p.length ≤ n → ReachLe f n a b := by
  induction p with
  | nil =>
    intro n a b _ h2 _
    have : a = b := by simpa using h2
    subst this
    exact reachLe_refl f n a
  | cons c p' ih =>
    intro n a b h1 h2 h3
    obtain ⟨hac, hch⟩ := List.chain'_cons.mp h1
    have hlen : 1 ≤ n := by
      simp at h3
      omega
    obtain ⟨m, rfl⟩ := Nat.exists_eq_add_of_le hlen
    rw [Nat.add_comm 1 m, reachLe_succ_iff]
    refine Or.inr ⟨c, hac, ?_⟩
    refine ih m c b hch ?_ ?_
    · rwa [List.getLast?_cons_cons] at h2
    · simp at h3
      omega

theorem reachLe_iff_walk (f : Key → List Key) (n : Nat) (a b : Key) :
    ReachLe f n a b ↔
      ∃ p : List Key, List.Chain' (fun u v => v ∈ f u) (a :: p) ∧
        (a :: p).getLast? = some b ∧ p.length ≤ n := by
  constructor
  · intro h
    induction n generalizing a with
    | zero =>
      rw [reachLe_zero_iff] at h
      subst h
      exact ⟨[], List.chain'_singleton a, rfl, Nat.le_refl 0⟩
    | succ n ih =>
      rcases h with rfl | ⟨c, hc, h⟩
      · exact ⟨[], List.chain'_singleton a, rfl, by simp⟩
      · obtain ⟨p, h1, h2, h3⟩ := ih c h
        refine ⟨c :: p, ?_, ?_, by simpa using h3⟩
        · exact List.chain'_cons.mpr ⟨hc, h1⟩
        · rwa [List.getLast?_cons_cons]
  · rintro ⟨p, h1, h2, h3⟩
    exact walk_to_reachLe f p n a b h1 h2 h3

/-! ## Walk shortening -/

theorem exists_dup_split {α : Type} (l : List α) (h : ¬ l.Nodup) :
    ∃ (l₁ l₂ l₃ : List α) (x : α), l = l₁ ++ x :: l₂ ++ x :: l₃ := by
  induction l with
  | nil => exact absurd List.nodup_nil h
  | cons a t ih =>
    by_cases ha : a ∈ t
    · obtain ⟨s₁, s₂, rfl⟩ := List.append_of_mem ha
      exact ⟨[], s₁, s₂, a, rfl⟩
    · have ht : ¬ t.Nodup := fun hn => h (List.nodup_cons.mpr ⟨ha, hn⟩)
      obtain ⟨l₁, l₂, l₃, x, rfl⟩ := ih ht
      exact ⟨a :: l₁, l₂, l₃, x, rfl⟩

theorem head?_append_cons {α : Type} (l t t' : List α) (x : α) :
    (l ++ x :: t).head? = (l ++ x :: t').head? := by
  cases l <;> simp

theorem chain'_cut {R : Key → Key → Prop} (l₁ l₂ l₃ : List Key) (x : Key)
    (h : List.Chain' R (l₁ ++ x :: l₂ ++ x :: l₃)) :
    List.Chain' R (l₁ ++ x :: l₃) := by
  have h' : List.Chain' R (l₁ ++ (x :: (l₂ ++ x :: l₃))) := by
    simpa using h
  obtain ⟨c1, c2, hlink⟩ := List.chain'_append.mp h'
  have hsuf : (x :: l₃) <:+ (x :: (l₂ ++ x :: l₃)) :=
    List.IsSuffix.trans (List.suffix_append l₂ (x :: l₃)) (List.suffix_cons x _)
  have c3 : List.Chain' R (x :: l₃) := c2.suffix hsuf
  refine List.chain'_append.mpr ⟨c1, c3, ?_⟩
  intro y hy z hz
  exact hlink y hy z (by simpa using hz)

theorem chain'_shorten {R : Key → Key → Prop} :
    ∀ (N : Nat) (p : List Key), p.length ≤ N → List.Chain' R p →
      ∃ q, List.Chain' R q ∧ q.head? = p.head? ∧ q.getLast? = p.getLast? ∧
        q.Nodup ∧ ∀ x ∈ q, x ∈ p := by
  intro N
  induction N with
  | zero =>
    intro p hlen _
    have : p = [] := List.eq_nil_of_length_eq_zero (Nat.le_zero.mp hlen)
    subst this
    exact ⟨[], List.chain'_nil, rfl, rfl, List.nodup_nil, by simp⟩
  | succ N ih =>
    intro p hlen hch
    by_cases hnd : p.Nodup
    · exact ⟨p, hch, rfl, rfl, hnd, fun x hx => hx⟩
    · obtain ⟨l₁, l₂, l₃, x, rfl⟩ := exists_dup_split p hnd
      have hcut := chain'_cut l₁ l₂ l₃ x hch
      have hlen' : (l₁ ++ x :: l₃).length ≤ N := by
        simp only [List.length_append, List.length_cons] at hlen ⊢
        omega
      obtain ⟨q, h1, h2, h3, h4, h5⟩ := ih _ hlen' hcut
      refine ⟨q, h1, ?_, ?_, h4, ?_⟩
      · rw [h2]
        cases l₁ <;> simp
      · rw [h3, List.getLast?_append_cons l₁ x l₃,
          List.getLast?_append_cons (l₁ ++ x :: l₂) x l₃]
      · intro y hy
        have := h5 y hy
        simp only [List.mem_append, List.mem_cons] at this ⊢
        tauto

/-! ## Weak connectivity (C9) -/

theorem mem_succs (g : Graph) (a b : Key) :
    b ∈ succs g a ↔ ∃ e ∈ g.edges, e.src = a ∧ e.dst = b := by
  simp only [succs, List.mem_map, List.mem_filter, beq_iff_eq]
  constructor
  · rintro ⟨e, ⟨he, hs⟩, hd⟩
    exact ⟨e, he, hs, hd⟩
  · rintro ⟨e, he, hs, hd⟩
    exact ⟨e, ⟨he, hs⟩, hd⟩

theorem mem_preds (g : Graph) (a b : Key) :
    b ∈ preds g a ↔ ∃ e ∈ g.edges, e.dst = a ∧ e.src = b := by
  simp only [preds, List.mem_map, List.mem_filter, beq_iff_eq]
  constructor
  · rintro ⟨e, ⟨he, hd⟩, hs⟩
    exact ⟨e, he, hd, hs⟩
  · rintro ⟨e, he, hd, hs⟩
    exact ⟨e, ⟨he, hd⟩, hs⟩

theorem mem_symSucc (g : Graph) (a b : Key) :
    b ∈ symSucc g a ↔ adjSym g a b := by
  unfold symSucc adjSym
  rw [List.mem_append, mem_succs, mem_preds]
  constructor
  · rintro (⟨e, he, hs, hd⟩ | ⟨e, he, hd, hs⟩)
    · exact ⟨e, he, Or.inl ⟨hs, hd⟩⟩
    · exact ⟨e, he, Or.inr ⟨hs, hd⟩⟩
  · rintro ⟨e, he, ⟨hs, hd⟩ | ⟨hs, hd⟩⟩
    · exact Or.inl ⟨e, he, hs, hd⟩
    · exact Or.inr ⟨e, he, hd, hs⟩

theorem symSucc_sub_keys (g : Graph) (hwf : Wf g) (a b : Key)
    (h : b ∈ symSucc g a) : b ∈ nodeKeys g := by
  rcases List.mem_append.mp h with h | h
  · obtain ⟨e, he, _, hd⟩ := (mem_succs g a b).mp h
    exact hd ▸ (hwf e he).2
  · obtain ⟨e, he, _, hs⟩ := (mem_preds g a b).mp h
    exact hs ▸ (hwf e he).1

theorem chain_mem_keys (keys : List Key) (f : Key → List Key)
    (hf : ∀ a b, b ∈ f a → b ∈ keys) :
    ∀ (q : List Key) (s : Key), List.Chain' (fun u v => v ∈ f u) q →
      q.head? = some s → s ∈ keys → ∀ x ∈ q, x ∈ keys := by
  intro q
  induction q with
  | nil =>
    intro s _ _ _ x hx
    simp at hx
  | cons a p ih =>
    intro s hch hh hs x hx
    have ha : a = s := by simpa using hh
    subst ha
    rcases List.mem_cons.mp hx with rfl | hx'
    · exact hs
    · cases p with
      | nil => simp at hx'
      | cons b p' =>
        obtain ⟨hab, hch'⟩ := List.chain'_cons.mp hch
        exact ih b hch' rfl (hf a b hab) x hx'

theorem rtg_adjSym_iff (g : Graph) (a b : Key) :
    Relation.ReflTransGen (stepRel (symSucc g)) a b ↔
      Relation.ReflTransGen (adjSym g) a b :=
  ⟨Relation.ReflTransGen.mono (fun x y h => (mem_symSucc g x y).mp h),
   Relation.ReflTransGen.mono (fun x y h => (mem_symSucc g x y).mpr h)⟩

theorem nx_weak_eq_true_iff (g : Graph) (v0 : Key) (rest : List Key)
    (hv : nodeKeys g = v0 :: rest) :
    (nx_is_weakly_connected g = true ↔
      ∀ x ∈ nodeKeys g, x ∈ reachIter (symSucc g) (numNodes g) [v0]) := by
  unfold nx_is_weakly_connected
  rw [hv]
  simp [List.all_eq_true]

theorem is_connected_iff (g : Graph) (hwf : Wf g) :
    is_connected g = true ↔ SingleComponent g := by
  by_cases h0 : numNodes g = 0
  · rw [is_connected, if_pos h0]
    have hk : nodeKeys g = [] := by
      have hn : g.nodes = [] := List.eq_nil_of_length_eq_zero h0
      simp [nodeKeys, hn]
    simp [SingleComponent, hk]
  · rw [is_connected, if_neg h0]
    have hk : nodeKeys g ≠ [] := by
      intro hc
      apply h0
      have := congrArg List.length hc
      simpa [nodeKeys, numNodes] using this
    obtain ⟨v0, rest, hv⟩ := List.exists_cons_of_ne_nil hk
    have hv0 : v0 ∈ nodeKeys g := by
      rw [hv]
      exact List.mem_cons_self _ _
    rw [nx_weak_eq_true_iff g v0 rest hv]
    constructor
    · intro hall
      refine ⟨hk, ?_⟩
      have hreach : ∀ x ∈ nodeKeys g, Relation.ReflTransGen (adjSym g) v0 x := by
        intro x hx
        have hx' := hall x hx
        rw [mem_reachIter] at hx'
        obtain ⟨a, ha, hr⟩ := hx'
        have haeq : a = v0 := by simpa using ha
        subst haeq
        exact (rtg_adjSym_iff g _ _).mp (reachLe_to_rtg _ _ _ _ hr)
      intro u hu v hvv
      have hsym : Symmetric (adjSym g) := by
        intro a b hab
        obtain ⟨e, he, hc⟩ := hab
        exact ⟨e, he, Or.symm hc⟩
      exact Relation.ReflTransGen.trans
        (Relation.ReflTransGen.symmetric hsym (hreach u hu)) (hreach v hvv)
    · rintro ⟨-, hcomp⟩
      intro x hx
      have hrtg : Relation.ReflTransGen (stepRel (symSucc g)) v0 x :=
        (rtg_adjSym_iff g _ _).mpr (hcomp v0 hv0 x hx)
      obtain ⟨n, hn⟩ := rtg_to_reachLe _ _ _ hrtg
      rw [reachLe_iff_walk] at hn
      obtain ⟨p, hch, hlast, -⟩ := hn
      obtain ⟨q, h1, h2, h3, h4, h5⟩ :=
        chain'_shorten (v0 :: p).length (v0 :: p) (Nat.le_refl _) hch
      have hq2 : q.head? = some v0 := by rw [h2]; rfl
      have hqkeys : ∀ y ∈ q, y ∈ nodeKeys g :=
        chain_mem_keys (nodeKeys g) (symSucc g)
          (fun a b hb => symSucc_sub_keys g hwf a b hb) q v0 h1 hq2 hv0
      have hqlen : q.length ≤ numNodes g := by
        have hsp := List.subperm_of_subset h4 hqkeys
        have := hsp.length_le
        simpa [nodeKeys, numNodes] using this
      obtain ⟨q', rfl⟩ : ∃ q', q = v0 :: q' := by
        cases q with
        | nil => simp at hq2
        | cons a q' =>
          have ha : a = v0 := by simpa using hq2
          exact ⟨q', by rw [ha]⟩
      have hr : ReachLe (symSucc g) (numNodes g) v0 x := by
        refine walk_to_reachLe _ q' (numNodes g) v0 x h1 ?_ ?_
        · rw [h3, hlast]
        · have := hqlen
          simp only [List.length_cons] at this
          omega
      rw [mem_reachIter]
      exact ⟨v0, by simp, hr⟩

/-- C9: `is_connected` is true iff the undirected projection of the graph is
a single connected component; false for the empty graph, true for any
one-node graph. -/
theorem C9_weak_connectivity (g : Graph) (hwf : Wf g) :
    ((basic_stats g).connected = true ↔ SingleComponent g) ∧
    (numNodes g = 0 → (basic_stats g).connected = false) ∧
    (numNodes g = 1 → (basic_stats g).connected = true) := by
  have hbc : (basic_stats g).connected = is_connected g := rfl
  refine ⟨by rw [hbc]; exact is_connected_iff g hwf, ?_, ?_⟩
  · intro h0
    rw [hbc, is_connected, if_pos h0]
  · intro h1
    rw [hbc, is_connected_iff g hwf]
    obtain ⟨v, hv⟩ : ∃ v, nodeKeys g = [v] := by
      have hlen : (nodeKeys g).length = 1 := by
        simpa [nodeKeys, numNodes] using h1
      cases hk : nodeKeys g with
      | nil => rw [hk] at hlen; simp at hlen
      | cons a t =>
        rw [hk] at hlen
        simp at hlen
        exact ⟨a, by rw [hlen]⟩
    refine ⟨by simp [hv], ?_⟩
    intro u hu w hw
    rw [hv] at hu hw
    have hu' : u = v := by simpa using hu
    have hw' : w = v := by simpa using hw
    subst hu'
    subst hw'
    exact Relation.ReflTransGen.refl

theorem C9_weak_connectivity_witness :
    Wf (buildGraph [] [⟨"a", "b", none⟩]) ∧
    (((basic_stats (buildGraph [] [⟨"a", "b", none⟩])).connected = true ↔
        SingleComponent (buildGraph [] [⟨"a", "b", none⟩])) ∧
      (numNodes (buildGraph [] [⟨"a", "b", none⟩]) = 0 →
        (basic_stats (buildGraph [] [⟨"a", "b", none⟩])).connected = false) ∧
      (numNodes (buildGraph [] [⟨"a", "b", none⟩]) = 1 →
        (basic_stats (buildGraph [] [⟨"a", "b", none⟩])).connected = true)) :=
  ⟨by unfold Wf; decide,
    C9_weak_connectivity _ (by unfold Wf; decide)⟩

/-! ## Shortest paths (C1, C10) -/

theorem mem_walksRev (g : Graph) (s : Key) :
    ∀ (L : Nat) (p : List Key), p ∈ walksRev g s L ↔
      p.length = L + 1 ∧ p.getLast? = some s ∧
        List.Chain' (fun a b => a ∈ succs g b) p := by
  intro L
  induction L with
  | zero =>
    intro p
    constructor
    · intro hp
      have hps : p = [s] := by simpa [walksRev] using hp
      subst hps
      exact ⟨rfl, rfl, List.chain'_singleton s⟩
    · rintro ⟨hlen, hlast, -⟩
      cases p with
      | nil => simp at hlen
      | cons x u =>
        cases u with
        | nil =>
          have hx : x = s := by simpa using hlast
          simp [walksRev, hx]
        | cons y u' => simp at hlen
  | succ L ih =>
    intro p
    show p ∈ (walksRev g s L).flatMap _ ↔ _
    rw [List.mem_flatMap]
    constructor
    · rintro ⟨p', hp', hp⟩
      obtain ⟨hlen', hlast', hch'⟩ := (ih p').mp hp'
      cases p' with
      | nil => simp at hlen'
      | cons x u =>
        have hp2 : p ∈ (succs g x).map (fun y => y :: x :: u) := hp
        obtain ⟨y, hy, rfl⟩ := List.mem_map.mp hp2
        refine ⟨by simpa using hlen', ?_, ?_⟩
        · rw [List.getLast?_cons_cons]
          exact hlast'
        · exact List.chain'_cons.mpr ⟨hy, hch'⟩
    · rintro ⟨hlen, hlast, hch⟩
      cases p with
      | nil => simp at hlen
      | cons y rest =>
        cases rest with
        | nil => simp at hlen
        | cons x u =>
          obtain ⟨hy, hch'⟩ := List.chain'_cons.mp hch
          refine ⟨x :: u, (ih (x :: u)).mpr
            ⟨by simpa using hlen, by rwa [List.getLast?_cons_cons] at hlast, hch'⟩, ?_⟩
          show y :: x :: u ∈ (succs g x).map (fun z => z :: x :: u)
          exact List.mem_map.mpr ⟨y, hy, rfl⟩

theorem mem_shortestPathsList (g : Graph) (s t : Key) (L : Nat) (q : List Key) :
    q ∈ shortestPathsList g s t L ↔ DirWalkFromTo g s t q ∧ q.length = L + 1 := by
  unfold shortestPathsList DirWalkFromTo
  rw [List.mem_map]
  constructor
  · rintro ⟨p, hp, rfl⟩
    rw [List.mem_filter] at hp
    obtain ⟨hpw, hph⟩ := hp
    obtain ⟨hlen, hlast, hch⟩ := (mem_walksRev g s L p).mp hpw
    have hph' : p.head? = some t := of_decide_eq_true hph
    refine ⟨⟨List.chain'_reverse.mpr hch, ?_, ?_⟩, by simpa using hlen⟩
    · rw [List.head?_reverse]
      exact hlast
    · rw [List.getLast?_reverse]
      exact hph'
  · rintro ⟨⟨hch, hh, hl⟩, hlen⟩
    refine ⟨q.reverse, ?_, by simp⟩
    rw [List.mem_filter]
    refine ⟨(mem_walksRev g s L _).mpr ⟨by simpa using hlen, ?_, ?_⟩, ?_⟩
    · rw [List.getLast?_reverse]
      exact hh
    · exact List.chain'_reverse.mpr hch
    · rw [decide_eq_true_eq, List.head?_reverse]
      exact hl

theorem hasWalkLen_iff (g : Graph) (s t : Key) (L : Nat) :
    hasWalkLen g s t L = true ↔ ∃ q, DirWalkFromTo g s t q ∧ q.length = L + 1 := by
  unfold hasWalkLen
  rw [List.any_eq_true]
  constructor
  · rintro ⟨p, hp, hd⟩
    refine ⟨p.reverse, ?_⟩
    rw [← mem_shortestPathsList]
    unfold shortestPathsList
    exact List.mem_map_of_mem _ (List.mem_filter.mpr ⟨hp, hd⟩)
  · rintro ⟨q, hq⟩
    have hqm := (mem_shortestPathsList g s t L q).mpr hq
    unfold shortestPathsList at hqm
    obtain ⟨p, hp, -⟩ := List.mem_map.mp hqm
    rw [List.mem_filter] at hp
    exact ⟨p, hp.1, hp.2⟩

theorem searchLen_some (g : Graph) (s t : Key) :
    ∀ (fuel L0 L : Nat), searchLen g s t L0 fuel = some L →
      hasWalkLen g s t L = true ∧ L0 ≤ L ∧
        ∀ L', L0 ≤ L' → L' < L → hasWalkLen g s t L' = false := by
  intro fuel
  induction fuel with
  | zero =>
    intro L0 L h
    simp [searchLen] at h
  | succ fuel ih =>
    intro L0 L h
    unfold searchLen at h
    by_cases hw : hasWalkLen g s t L0 = true
    · rw [if_pos hw] at h
      obtain rfl : L0 = L := by simpa using h
      exact ⟨hw, Nat.le_refl _, fun L' h1 h2 => absurd h1 (by omega)⟩
    · rw [if_neg hw] at h
      obtain ⟨h1, h2, h3⟩ := ih (L0 + 1) L h
      refine ⟨h1, by omega, ?_⟩
      intro L' hL1 hL2
      by_cases hL0 : L' = L0
      · subst hL0
        exact Bool.eq_false_iff.mpr hw
      · exact h3 L' (by omega) hL2

theorem searchLen_none (g : Graph) (s t : Key) :
    ∀ (fuel L0 : Nat), searchLen g s t L0 fuel = none →
      ∀ L', L0 ≤ L' → L' < L0 + fuel → hasWalkLen g s t L' = false := by
  intro fuel
  induction fuel with
  | zero =>
    intro L0 _ L' h1 h2
    omega
  | succ fuel ih =>
    intro L0 h L' h1 h2
    unfold searchLen at h
    by_cases hw : hasWalkLen g s t L0 = true
    · rw [if_pos hw] at h
      simp at h
    · rw [if_neg hw] at h
      by_cases hL0 : L' = L0
      · subst hL0
        exact Bool.eq_false_iff.mpr hw
      · exact ih (L0 + 1) h L' (by omega) (by omega)

theorem exists_short_walk (g : Graph) (s t : Key) (hwf : Wf g)
    (hs : s ∈ nodeKeys g) (hex : ∃ q, DirWalkFromTo g s t q) :
    ∃ L, L < numNodes g ∧ hasWalkLen g s t L = true := by
  obtain ⟨q, hch, hh, hl⟩ := hex
  obtain ⟨q', h1, h2, h3, h4, h5⟩ := chain'_shorten q.length q (Nat.le_refl _) hch
  have hh' : q'.head? = some s := by rw [h2]; exact hh
  have hl' : q'.getLast? = some t := by rw [h3]; exact hl
  have hkeys : ∀ x ∈ q', x ∈ nodeKeys g := by
    refine chain_mem_keys (nodeKeys g) (succs g) ?_ q' s h1 hh' hs
    intro a b hb
    obtain ⟨e, he, -, hd⟩ := (mem_succs g a b).mp hb
    exact hd ▸ (hwf e he).2
  have hlen : q'.length ≤ numNodes g := by
    have hsp := List.subperm_of_subset h4 hkeys
    simpa [nodeKeys, numNodes] using hsp.length_le
  obtain ⟨a, q'', rfl⟩ : ∃ a q'', q' = a :: q'' := by
    cases q' with
    | nil => simp at hh'
    | cons a q'' => exact ⟨a, q'', rfl⟩
  refine ⟨q''.length, by simp at hlen; omega, ?_⟩
  rw [hasWalkLen_iff]
  exact ⟨a :: q'', ⟨h1, hh', hl'⟩, by simp⟩

theorem find_paths_eq_err1 (g : Graph) (s t : Key) (k : Nat)
    (h : hasNode g s = false) : find_paths g s t k = [] := by
  unfold find_paths all_shortest_paths
  rw [h]
  simp

theorem find_paths_eq_err2 (g : Graph) (s t : Key) (k : Nat)
    (h1 : hasNode g s = true) (h2 : hasNode g t = false) :
    find_paths g s t k = [] := by
  unfold find_paths all_shortest_paths
  rw [h1, h2]
  simp

theorem find_paths_eq_none (g : Graph) (s t : Key) (k : Nat)
    (h1 : hasNode g s = true) (h2 : hasNode g t = true)
    (h3 : searchLen g s t 0 (numNodes g) = none) :
    find_paths g s t k = [] := by
  unfold find_paths all_shortest_paths
  rw [h1, h2, h3]
  simp

theorem find_paths_eq_some (g : Graph) (s t : Key) (k L : Nat)
    (h1 : hasNode g s = true) (h2 : hasNode g t = true)
    (h3 : searchLen g s t 0 (numNodes g) = some L) :
    find_paths g s t k = (shortestPathsList g s t L).take k := by
  unfold find_paths all_shortest_paths
  rw [h1, h2, h3]
  simp

/-- C1: `find_paths` returns at most `k` paths; every returned path is a
directed walk from `source` to `target`; all returned paths share one length
`d + 1` where `d` is the graph-theoretic shortest directed distance; a
missing endpoint or an unreachable target yields the empty list — and when
both endpoints exist and a path exists, the result is nonempty. -/
theorem C1_find_paths (g : Graph) (s t : Key) (k : Nat)
    (hwf : Wf g) (hk : 1 ≤ k) :
    (find_paths g s t k).length ≤ k ∧
    (∀ q ∈ find_paths g s t k, DirWalkFromTo g s t q) ∧
    (find_paths g s t k ≠ [] →
      ∃ d, IsShortestDistance g s t d ∧
        ∀ q ∈ find_paths g s t k, q.length = d + 1) ∧
    ((s ∉ nodeKeys g ∨ t ∉ nodeKeys g ∨ ¬ ∃ q, DirWalkFromTo g s t q) →
      find_paths g s t k = []) ∧
    (s ∈ nodeKeys g → t ∈ nodeKeys g → (∃ q, DirWalkFromTo g s t q) →
      find_paths g s t k ≠ []) := by
  by_cases hs : hasNode g s = true
  · by_cases ht : hasNode g t = true
    · cases hsl : searchLen g s t 0 (numNodes g) with
      | none =>
        have hfp := find_paths_eq_none g s t k hs ht hsl
        have hnopath : ¬ ∃ q, DirWalkFromTo g s t q := by
          rintro hex
          obtain ⟨L, hL, hwL⟩ :=
            exists_short_walk g s t hwf ((hasNode_iff g s).mp hs) hex
          have := searchLen_none g s t (numNodes g) 0 hsl L (by omega) (by omega)
          rw [hwL] at this
          simp at this
        refine ⟨by rw [hfp]; simp, by rw [hfp]; simp, ?_, fun _ => hfp, ?_⟩
        · intro hne
          exact absurd hfp hne
        · intro _ _ hex
          exact absurd hex hnopath
      | some L =>
        have hfp := find_paths_eq_some g s t k L hs ht hsl
        obtain ⟨hwL, -, hmin⟩ := searchLen_some g s t (numNodes g) 0 L hsl
        have hmem : ∀ q ∈ find_paths g s t k,
            DirWalkFromTo g s t q ∧ q.length = L + 1 := by
          intro q hq
          rw [hfp] at hq
          exact (mem_shortestPathsList g s t L q).mp (List.take_subset _ _ hq)
        refine ⟨?_, fun q hq => (hmem q hq).1, ?_, ?_, ?_⟩
        · rw [hfp, List.length_take]
          exact Nat.min_le_left _ _
        · intro _
          refine ⟨L, ⟨?_, ?_⟩, fun q hq => (hmem q hq).2⟩
          · exact (hasWalkLen_iff g s t L).mp hwL
          · intro q hq
            by_contra hcon
            push_neg at hcon
            have hq1 : 1 ≤ q.length := by
              obtain ⟨-, hh, -⟩ := hq
              cases q with
              | nil => simp at hh
              | cons a u => simp
            have hquick : hasWalkLen g s t (q.length - 1) = true := by
              rw [hasWalkLen_iff]
              exact ⟨q, hq, by omega⟩
            rw [hmin (q.length - 1) (by omega) (by omega)] at hquick
            simp at hquick
        · rintro (h | h | h)
          · exact absurd ((hasNode_iff g s).mp hs) h
          · exact absurd ((hasNode_iff g t).mp ht) h
          · obtain ⟨q, hq, -⟩ := (hasWalkLen_iff g s t L).mp hwL
            exact absurd ⟨q, hq⟩ h
        · intro _ _ _
          rw [hfp]
          have hne : shortestPathsList g s t L ≠ [] := by
            obtain ⟨q, hq, hql⟩ := (hasWalkLen_iff g s t L).mp hwL
            exact List.ne_nil_of_mem ((mem_shortestPathsList g s t L q).mpr ⟨hq, hql⟩)
          intro hcon
          have hlen0 := congrArg List.length hcon
          rw [List.length_take] at hlen0
          simp only [List.length_nil] at hlen0
          rcases Nat.min_eq_zero_iff.mp hlen0 with h | h
          · omega
          · exact hne (List.eq_nil_of_length_eq_zero h)
    · have hfp := find_paths_eq_err2 g s t k hs (Bool.eq_false_iff.mpr ht)
      refine ⟨by rw [hfp]; simp, by rw [hfp]; simp, ?_, fun _ => hfp, ?_⟩
      · intro hne
        exact absurd hfp hne
      · intro _ ht' _
        exact absurd ((hasNode_iff g t).mpr ht') (by simpa using ht)
  · have hfp := find_paths_eq_err1 g s t k (Bool.eq_false_iff.mpr hs)
    refine ⟨by rw [hfp]; simp, by rw [hfp]; simp, ?_, fun _ => hfp, ?_⟩
    · intro hne
      exact absurd hfp hne
    · intro hs' _ _
      exact absurd ((hasNode_iff g s).mpr hs') (by simpa using hs)

theorem C1_find_paths_witness :
    Wf (buildGraph [] [⟨"a", "b", none⟩, ⟨"b", "c", none⟩]) ∧ 1 ≤ 5 ∧
    (∀ q ∈ find_paths (buildGraph [] [⟨"a", "b", none⟩, ⟨"b", "c", none⟩]) "a" "c" 5,
      DirWalkFromTo (buildGraph [] [⟨"a", "b", none⟩, ⟨"b", "c", none⟩]) "a" "c" q) ∧
    (find_paths (buildGraph [] [⟨"a", "b", none⟩, ⟨"b", "c", none⟩]) "a" "c" 5 ≠ [] →
      ∃ d, IsShortestDistance (buildGraph [] [⟨"a", "b", none⟩, ⟨"b", "c", none⟩]) "a" "c" d ∧
        ∀ q ∈ find_paths (buildGraph [] [⟨"a", "b", none⟩, ⟨"b", "c", none⟩]) "a" "c" 5,
          q.length = d + 1) :=
  ⟨by unfold Wf; decide, by decide,
    (C1_find_paths _ ("a") ("c") 5 (by unfold Wf; decide) (by decide)).2.1,
    (C1_find_paths _ ("a") ("c") 5 (by unfold Wf; decide) (by decide)).2.2.1⟩

/-- C10: a self query `find_paths(s, s, k)` for a node `s` of the graph and
`k ≥ 1` returns exactly the single zero-length path `[s]`. -/
theorem C10_self_path (g : Graph) (s : Key) (k : Nat)
    (hs : s ∈ nodeKeys g) (hk : 1 ≤ k) :
    find_paths g s s k = [[s]] := by
  have hb : hasNode g s = true := (hasNode_iff g s).mpr hs
  have hn : numNodes g ≠ 0 := by
    intro h0
    have hnil : g.nodes = [] := List.eq_nil_of_length_eq_zero h0
    rw [nodeKeys, hnil] at hs
    simp at hs
  have hw0 : hasWalkLen g s s 0 = true := by
    simp [hasWalkLen, walksRev]
  have hsl : searchLen g s s 0 (numNodes g) = some 0 := by
    obtain ⟨n', hn'⟩ := Nat.exists_eq_succ_of_ne_zero hn
    rw [hn']
    unfold searchLen
    rw [if_pos hw0]
  rw [find_paths_eq_some g s s k 0 hb hb hsl]
  obtain ⟨k', rfl⟩ := Nat.exists_eq_succ_of_ne_zero (by omega : k ≠ 0)
  simp [shortestPathsList, walksRev]

theorem C10_self_path_witness :
    "a" ∈ nodeKeys (buildGraph [] [⟨"a", "b", none⟩]) ∧ 1 ≤ 5 ∧
    find_paths (buildGraph [] [⟨"a", "b", none⟩]) "a" "a" 5 = [["a"]] :=
  ⟨by decide, by decide, C10_self_path _ ("a") 5 (by decide) (by decide)⟩

/-! ## Community detection (C8) -/

theorem pairsWithRest_perm {α : Type} [DecidableEq α] :
    ∀ (cs : List α) (a b : α) (rest : List α),
      (a, b, rest) ∈ pairsWithRest cs → cs.Perm (a :: b :: rest) := by
  intro cs
  induction cs with
  | nil =>
    intro a b rest h
    simp [pairsWithRest] at h
  | cons x xs ih =>
    intro a b rest h
    unfold pairsWithRest at h
    rw [List.mem_append] at h
    rcases h with h | h
    · obtain ⟨y, hy, heq⟩ := List.mem_map.mp h
      simp only [Prod.mk.injEq] at heq
      obtain ⟨rfl, rfl, rfl⟩ := heq
      exact List.Perm.cons x (List.perm_cons_erase hy)
    · obtain ⟨⟨a', b', r'⟩, ht, heq⟩ := List.mem_map.mp h
      simp only [Prod.mk.injEq] at heq
      obtain ⟨rfl, rfl, rfl⟩ := heq
      have hperm := ih a' b' r' ht
      refine (hperm.cons x).trans ?_
      refine (List.Perm.swap a' x _).trans ?_
      exact (List.Perm.swap b' x _).cons a'

theorem foldl_choose_mem {α : Type} (f : α → α → α)
    (hf : ∀ a b, f a b = a ∨ f a b = b) :
    ∀ (l : List α) (c : α), l.foldl f c ∈ c :: l := by
  intro l
  induction l with
  | nil =>
    intro c
    simp
  | cons t ts ih =>
    intro c
    rw [List.foldl_cons]
    rcases List.mem_cons.mp (ih (f c t)) with h | h
    · rw [h]
      rcases hf c t with h' | h' <;> rw [h'] <;> simp
    · exact List.mem_cons_of_mem c (List.mem_cons_of_mem t h)

theorem maxDqFold_mem (ug : UGraph) (m : ℚ)
    (c : List Key × List Key × List (List Key))
    (l : List (List Key × List Key × List (List Key))) :
    maxDqFold ug m c l ∈ c :: l := by
  unfold maxDqFold
  refine foldl_choose_mem _ ?_ l c
  intro a b
  by_cases h : dq ug m a.1 a.2.1 < dq ug m b.1 b.2.1
  · rw [if_pos h]
    exact Or.inr rfl
  · rw [if_neg h]
    exact Or.inl rfl

theorem bestMerge_perm (ug : UGraph) (m : ℚ) (cs : List (List Key))
    (a b : List Key) (rest : List (List Key))
    (h : bestMerge ug m cs = some (a, b, rest)) :
    cs.Perm (a :: b :: rest) := by
  unfold bestMerge at h
  split at h
  next => simp at h
  next c crest hc =>
    split at h
    next => simp at h
    next hdq =>
      have hb : maxDqFold ug m c crest = (a, b, rest) := by simpa using h
      have hmem : (a, b, rest) ∈ c :: crest := hb ▸ maxDqFold_mem ug m c crest
      have hpw : (a, b, rest) ∈ pairsWithRest cs := by
        have hfm : (a, b, rest) ∈
            (pairsWithRest cs).filter (fun t => 0 < crossEdges ug t.1 t.2.1) := by
          rw [hc]
          exact hmem
        exact List.mem_of_mem_filter hfm
      exact pairsWithRest_perm cs a b rest hpw

theorem cnmLoop_flatten_perm (ug : UGraph) (m : ℚ) :
    ∀ (fuel : Nat) (cs : List (List Key)),
      ((cnmLoop ug m fuel cs).flatten).Perm cs.flatten := by
  intro fuel
  induction fuel with
  | zero =>
    intro cs
    exact List.Perm.refl _
  | succ fuel ih =>
    intro cs
    show (match bestMerge ug m cs with
      | none => cs
      | some (a, b, rest) => cnmLoop ug m fuel ((a ++ b) :: rest)).flatten.Perm cs.flatten
    cases hb : bestMerge ug m cs with
    | none => exact List.Perm.refl _
    | some t =>
      obtain ⟨a, b, rest⟩ := t
      have hperm := bestMerge_perm ug m cs a b rest hb
      refine (ih ((a ++ b) :: rest)).trans ?_
      have h1 : ((a ++ b) :: rest).flatten = (a :: b :: rest).flatten := by simp
      rw [h1]
      exact (hperm.flatten).symm

theorem flatten_singletons (l : List Key) :
    (l.map (fun v => [v])).flatten = l := by
  induction l with
  | nil => rfl
  | cons x xs ih => simp [ih]

theorem insDesc_perm {α : Type} (score : α → ℚ) (x : α) (l : List α) :
    (insDesc score x l).Perm (x :: l) := by
  induction l with
  | nil => exact List.Perm.refl _
  | cons y ys ih =>
    unfold insDesc
    split
    · exact List.Perm.refl _
    · exact (ih.cons y).trans (List.Perm.swap x y ys)

theorem sortDesc_perm {α : Type} (score : α → ℚ) (l : List α) :
    (sortDesc score l).Perm l := by
  induction l with
  | nil => exact List.Perm.refl _
  | cons x xs ih =>
    rw [sortDesc_cons]
    exact (insDesc_perm score x (sortDesc score xs)).trans (ih.cons x)

/-- C8: `community_detection` returns the empty list for the empty graph and
whenever the library call raises (caught by the bare `except`); any nonempty
result is a partition of the node keys — its members are pairwise disjoint
and their concatenation is a permutation of the node-key list, so every node
is covered exactly once.  The function is total, so no failure propagates. -/
theorem C8_communities (g : Graph) (hnd : (nodeKeys g).Nodup) :
    (numNodes g = 0 → community_detection g = []) ∧
    ((∃ msg, greedy_modularity_communities (to_undirected g) = .error msg) →
      community_detection g = []) ∧
    (community_detection g ≠ [] →
      (community_detection g).flatten.Perm (nodeKeys g) ∧
      List.Pairwise (fun c₁ c₂ => ∀ x ∈ c₁, x ∉ c₂) (community_detection g)) := by
  refine ⟨?_, ?_, ?_⟩
  · intro h0
    unfold community_detection
    rw [if_pos h0]
  · rintro ⟨msg, hmsg⟩
    unfold community_detection
    by_cases h0 : numNodes g = 0
    · rw [if_pos h0]
    · rw [if_neg h0, hmsg]
  · intro hne
    by_cases h0 : numNodes g = 0
    · exact absurd (by unfold community_detection; rw [if_pos h0]) hne
    have hcd : ∀ cs, greedy_modularity_communities (to_undirected g) = .ok cs →
        community_detection g = cs := by
      intro cs hcs
      unfold community_detection
      rw [if_neg h0, hcs]
    cases hgr : greedy_modularity_communities (to_undirected g) with
    | error msg =>
      exact absurd (by unfold community_detection; rw [if_neg h0, hgr]) hne
    | ok cs =>
      have hr : community_detection g = cs := hcd cs hgr
      unfold greedy_modularity_communities at hgr
      by_cases hm : (to_undirected g).edges.length = 0
      · rw [if_pos hm] at hgr
        simp at hgr
      · rw [if_neg hm] at hgr
        have hcs : cs = sortDesc (fun c : List Key => (c.length : ℚ))
            (cnmLoop (to_undirected g) ((to_undirected g).edges.length : ℚ)
              (to_undirected g).nodes.length
              ((to_undirected g).nodes.map (fun v => [v]))) := by
          simpa using hgr.symm
        have hperm : cs.flatten.Perm (nodeKeys g) := by
          rw [hcs]
          refine ((sortDesc_perm _ _).flatten).trans ?_
          refine (cnmLoop_flatten_perm _ _ _ _).trans ?_
          rw [flatten_singletons]
          exact List.Perm.refl _
        rw [hr]
        refine ⟨hperm, ?_⟩
        have hnodup : cs.flatten.Nodup := hperm.symm.nodup hnd
        have hpairs := (List.nodup_flatten.mp hnodup).2
        exact hpairs.imp (fun hd x hx1 hx2 => hd hx1 hx2)

theorem C8_communities_witness :
    (nodeKeys (buildGraph [] [⟨"a", "b", none⟩, ⟨"c", "b", none⟩])).Nodup ∧
    (community_detection (buildGraph [] [⟨"a", "b", none⟩, ⟨"c", "b", none⟩]) ≠ [] →
      (community_detection (buildGraph [] [⟨"a", "b", none⟩, ⟨"c", "b", none⟩])).flatten.Perm
        (nodeKeys (buildGraph [] [⟨"a", "b", none⟩, ⟨"c", "b", none⟩])) ∧
      List.Pairwise (fun c₁ c₂ => ∀ x ∈ c₁, x ∉ c₂)
        (community_detection (buildGraph [] [⟨"a", "b", none⟩, ⟨"c", "b", none⟩]))) :=
  ⟨by decide, (C8_communities _ (by decide)).2.2⟩

end KG
